import Mathlib

set_option maxHeartbeats 1000000
set_option maxRecDepth 4000

/-!
Shallow embedding of the bd-complete help-text parser (`src/parser.rs`) and of
the command-tree data model (`src/command_tree.rs`).

Strings are modelled as lists of characters (`Str`).  The Rust code walks flag
lines byte by byte, but every byte it inspects (`b' '`, `b'-'`, `b':'`, ...)
is a single-byte UTF-8 code unit that can never occur inside a multi-byte
character, so the byte walk coincides with a character walk; byte lengths are
used (`byteLen`) exactly where the Rust code uses `str::len`.  `BTreeMap` is
modelled as an association list kept sorted by the code-point order on keys
(UTF-8 byte order and code-point order agree), with `insertAL` replacing the
value on an existing key, matching `BTreeMap::insert`, and iteration in sorted
key order.  All functions are total structural recursions; where the Rust
loop advances a cursor by a variable amount, a fuel argument bounded below by
the input length is used, and the fuel is always sufficient because each loop
iteration consumes at least one character.
-/

namespace Bd

abbrev Str := List Char

def isWhite (c : Char) : Bool :=
  c == ' ' || c == '\t' || c == '\n' || c == '\r'

def containsChar (c : Char) (s : Str) : Bool := s.any (· == c)

def startsWithChar (s : Str) (c : Char) : Bool :=
  match s with
  | [] => false
  | x :: _ => x == c

def endsWithChar (s : Str) (c : Char) : Bool :=
  match s.getLast? with
  | none => false
  | some x => x == c

/-- `str::trim_end_matches(c)`: drop every trailing occurrence of `c`. -/
def dropTrailing (c : Char) (s : Str) : Str :=
  (s.reverse.dropWhile (· == c)).reverse

/-- `str::trim()`. -/
def trimL (s : Str) : Str :=
  ((s.dropWhile isWhite).reverse.dropWhile isWhite).reverse

def splitOnChar (c : Char) : Str → List Str
  | [] => [[]]
  | x :: xs =>
    if x = c then [] :: splitOnChar c xs
    else
      match splitOnChar c xs with
      | [] => [[x]]
      | t :: ts => (x :: t) :: ts

def stripCR (s : Str) : Str :=
  if s.getLast? = some '\r' then s.dropLast else s

/-- `str::lines()`: split on `'\n'`, drop a final empty segment produced by a
trailing newline, and strip one trailing `'\r'` from each line. -/
def linesOf (s : Str) : List Str :=
  let segs := splitOnChar '\n' s
  let segs := if segs.getLast? = some [] then segs.dropLast else segs
  segs.map stripCR

def splitWsAux : Str → Str → List Str
  | [], cur => if cur = [] then [] else [cur.reverse]
  | c :: rest, cur =>
    if isWhite c then
      if cur = [] then splitWsAux rest []
      else cur.reverse :: splitWsAux rest []
    else splitWsAux rest (c :: cur)

/-- `str::split_whitespace()`. -/
def splitWhitespaceL (s : Str) : List Str := splitWsAux s []

/-- `str::find(pattern)` for a string pattern: index of the first occurrence. -/
def findSub (pat : Str) : Str → Option Nat
  | [] => if pat = [] then some 0 else none
  | x :: rest =>
    if pat.isPrefixOf (x :: rest) then some 0
    else (findSub pat rest).map (· + 1)

/-- `str::find(c)` for a character. -/
def findChar (c : Char) : Str → Option Nat
  | [] => none
  | x :: xs => if x = c then some 0 else (findChar c xs).map (· + 1)

/-- `str::len()` (UTF-8 byte length). -/
def byteLen (s : Str) : Nat := (s.map Char.utf8Size).sum

/-- `str::trim_start_matches(pat)` for a string pattern: repeatedly strip the
pattern from the front.  Fuel-driven; `fuel ≥ length` suffices since the
pattern used is nonempty. -/
def trimStartMatchesStr : Nat → Str → Str → Str
  | 0, _, s => s
  | fuel + 1, pat, s =>
    if pat ≠ [] && pat.isPrefixOf s then
      trimStartMatchesStr fuel pat (s.drop pat.length)
    else s

/-! ## Data model (`src/command_tree.rs`) -/

structure Flag where
  long : Str
  short : Option Char
  description : Str
  value_type : Option Str
  default : Option Str
deriving DecidableEq

structure CommandGroup where
  name : Str
  commands : List Str
deriving DecidableEq

inductive Command where
  | mk (name : Str) (description : Str) (aliases : List Str) (usage : Option Str)
      (flags : List Flag) (subcommands : List (Str × Command)) (group : Option Str)

def Command.name : Command → Str
  | .mk n _ _ _ _ _ _ => n

def Command.description : Command → Str
  | .mk _ d _ _ _ _ _ => d

def Command.aliases : Command → List Str
  | .mk _ _ a _ _ _ _ => a

def Command.usage : Command → Option Str
  | .mk _ _ _ u _ _ _ => u

def Command.flags : Command → List Flag
  | .mk _ _ _ _ f _ _ => f

def Command.subcommands : Command → List (Str × Command)
  | .mk _ _ _ _ _ s _ => s

def Command.group : Command → Option Str
  | .mk _ _ _ _ _ _ g => g

/-- `Command::new`. -/
def Command.new (name description : Str) : Command :=
  .mk name description [] none [] [] none

def Command.withName : Command → Str → Command
  | .mk _ d a u f s g, n => .mk n d a u f s g

def Command.withAliases : Command → List Str → Command
  | .mk n d _ u f s g, a => .mk n d a u f s g

def Command.withUsage : Command → Option Str → Command
  | .mk n d a _ f s g, u => .mk n d a u f s g

def Command.withFlags : Command → List Flag → Command
  | .mk n d a u _ s g, f => .mk n d a u f s g

def Command.withSubcommands : Command → List (Str × Command) → Command
  | .mk n d a u f _ g, s => .mk n d a u f s g

def Command.withGroup : Command → Option Str → Command
  | .mk n d a u f s _, g => .mk n d a u f s g

structure CommandTree where
  root : Command
  global_flags : List Flag
  groups : List CommandGroup

/-! ### The `BTreeMap<String, Command>` model -/

def strLt : Str → Str → Bool
  | [], [] => false
  | [], _ :: _ => true
  | _ :: _, [] => false
  | a :: as, b :: bs => if a < b then true else if b < a then false else strLt as bs

def lookupAL : List (Str × Command) → Str → Option Command
  | [], _ => none
  | (k, v) :: rest, n => if n = k then some v else lookupAL rest n

def insertAL : List (Str × Command) → Str → Command → List (Str × Command)
  | [], k, v => [(k, v)]
  | (k', v') :: rest, k, v =>
    if strLt k k' then (k, v) :: (k', v') :: rest
    else if k = k' then (k, v) :: rest
    else (k', v') :: insertAL rest k v

def keysAL (m : List (Str × Command)) : List Str := m.map Prod.fst

/-! ## Line classifier (`src/parser.rs`) -/

inductive Section where
  | Preamble
  | Usage
  | Aliases
  | Commands (group : Str)
  | Flags
  | GlobalFlags
deriving DecidableEq

/-- State of the single-pass fold in `parse_help_output`. -/
structure PState where
  description_lines : List Str
  usage : Option Str
  aliases : List Str
  flags : List Flag
  global_flags : List Flag
  subcommands : List (Str × Command)
  groups : List CommandGroup
  cur_name : Option Str
  cur_cmds : List Str
  sect : Section

def initPState : PState :=
  ⟨[], none, [], [], [], [], [], none, [], .Preamble⟩

/-- Header detection: no leading space or tab and a trailing colon. -/
def isHeaderLine (l : Str) : Bool :=
  !startsWithChar l ' ' && !startsWithChar l '\t' && endsWithChar l ':'

/-- Flushing the currently open command group (the `current_group_name.take()`
block in `parse_help_output`). -/
def flushGroup (st : PState) : PState :=
  match st.cur_name with
  | none => st
  | some g =>
    if st.cur_cmds = [] then { st with cur_name := none }
    else
      { st with groups := st.groups ++ [⟨g, st.cur_cmds⟩],
                cur_cmds := [], cur_name := none }

/-- The `Aliases` branch: split on commas, trim, keep nonempty tokens. -/
def commaTokens (s : Str) : List Str :=
  ((splitOnChar ',' s).map trimL).filter (· ≠ [])

/-- `parse_command_line`. -/
def parse_command_line (line : Str) : Option Command :=
  let trimmed := trimL line
  if trimmed = [] then none
  else
    let parts :=
      match findSub [' ', ' '] trimmed with
      | none => (trimL trimmed, ([] : Str))
      | some i => (trimL (trimmed.take i), trimL (trimmed.drop (i + 2)))
    if parts.1 = [] || startsWithChar parts.1 '-' then none
    else some (Command.new parts.1 parts.2)

/-- `is_value_type`. -/
def is_value_type (s : Str) : Bool :=
  s = "string".toList || s = "strings".toList || s = "int".toList ||
  s = "int32".toList || s = "int64".toList || s = "float".toList ||
  s = "float64".toList || s = "duration".toList || s = "uint".toList ||
  s = "count".toList

/-- The token/gap walk of `split_flag_description`.  `done ++ rest` is the
whole line; `found` records whether a dash-containing token has been seen.
The fuel only guards termination: each iteration consumes a nonempty token,
so `length + 1` fuel is never exhausted. -/
def sfdLoop : Nat → Str → Str → Bool → Str × Str
  | 0, done, rest, _ => (done ++ rest, [])
  | fuel + 1, done, rest, found =>
    match rest with
    | [] => (done, [])
    | _ :: _ =>
      let token := rest.takeWhile (· != ' ')
      let rest1 := rest.dropWhile (· != ' ')
      let found := found || containsChar '-' token
      let spacesRun := rest1.takeWhile (· == ' ')
      let rest2 := rest1.dropWhile (· == ' ')
      if found && decide (2 ≤ spacesRun.length) && !decide (rest2 = []) then
        let next_token := rest2.takeWhile (· != ' ')
        let rest3 := rest2.dropWhile (· != ' ')
        if is_value_type next_token then
          (done ++ token ++ spacesRun ++ next_token, rest3.dropWhile (· == ' '))
        else (done ++ token, rest2)
      else sfdLoop fuel (done ++ token ++ spacesRun) rest2 found

/-- `split_flag_description`. -/
def split_flag_description (line : Str) : Str × Str :=
  sfdLoop (line.length + 1) (line.takeWhile (· == ' ')) (line.dropWhile (· == ' ')) false

/-- Accumulator of the token loop in `parse_flag_line`. -/
structure FlagAcc where
  short : Option Char
  long : Str
  value_type : Option Str
deriving DecidableEq

def initFlagAcc : FlagAcc := ⟨none, [], none⟩

/-- One iteration of the token loop in `parse_flag_line`. -/
def flagTokStep (acc : FlagAcc) (tok : Str) : FlagAcc :=
  let t := dropTrailing ',' tok
  if ("--".toList).isPrefixOf t then { acc with long := t.dropWhile (· == '-') }
  else if startsWithChar t '-' && byteLen t == 2 then { acc with short := (t.drop 1).head? }
  else if !decide (t = []) && !startsWithChar t '-' then { acc with value_type := some t }
  else acc

def defaultPat : Str := "(default".toList

/-- The stripping chain applied to the matched `(default ...)` span. -/
def stripDefaultVal (ds : Str) : Str :=
  let s1 := trimStartMatchesStr (ds.length + 1) defaultPat ds
  let s2 := s1.dropWhile (· == ':')
  let s3 := trimL s2
  let s4 := dropTrailing ')' s3
  let s5 := trimL s4
  dropTrailing '"' (s5.dropWhile (· == '"'))

/-- Default extraction from the description (`parse_flag_line`, lines 212-228). -/
def extractDefault (description : Str) : Option Str :=
  match findSub defaultPat description with
  | none => none
  | some s =>
    match findChar ')' (description.drop s) with
    | none => none
    | some e =>
      let val := stripDefaultVal ((description.drop s).take (e + 1))
      if val = [] then none else some val

/-- `parse_flag_line`. -/
def parse_flag_line (line : Str) : Option Flag :=
  let trimmed := trimL line
  if trimmed = [] || !containsChar '-' trimmed then none
  else
    let fd := split_flag_description trimmed
    let acc := (splitWhitespaceL fd.1).foldl flagTokStep initFlagAcc
    if acc.long = [] then none
    else some ⟨acc.long, acc.short, fd.2, acc.value_type, extractDefault fd.2⟩

/-- One line of the `parse_help_output` loop. -/
def stepLine (st : PState) (line : Str) : PState :=
  if isHeaderLine line then
    let st := flushGroup st
    let header := trimL (dropTrailing ':' line)
    if header = "Usage".toList then { st with sect := .Usage }
    else if header = "Aliases".toList then { st with sect := .Aliases }
    else if header = "Flags".toList then { st with sect := .Flags }
    else if header = "Global Flags".toList then { st with sect := .GlobalFlags }
    else { st with cur_name := some header, sect := .Commands header }
  else
    let trimmed := trimL line
    if trimmed = [] then st
    else
      match st.sect with
      | .Preamble =>
        if ("Use \"".toList).isPrefixOf trimmed then st
        else { st with description_lines := st.description_lines ++ [trimmed] }
      | .Usage =>
        if st.usage = none then { st with usage := some trimmed } else st
      | .Aliases => { st with aliases := st.aliases ++ commaTokens trimmed }
      | .Commands g =>
        match parse_command_line trimmed with
        | none => st
        | some c =>
          let c := c.withGroup (some g)
          { st with cur_cmds := st.cur_cmds ++ [c.name],
                    subcommands := insertAL st.subcommands c.name c }
      | .Flags =>
        match parse_flag_line trimmed with
        | none => st
        | some f => { st with flags := st.flags ++ [f] }
      | .GlobalFlags =>
        match parse_flag_line trimmed with
        | none => st
        | some f => { st with global_flags := st.global_flags ++ [f] }

/-- `parse_help_output` after line splitting. -/
def parseLines (ls : List Str) : Command × List Flag × List CommandGroup :=
  let st := flushGroup (ls.foldl stepLine initPState)
  let description := List.intercalate [' '] st.description_lines
  let aliases := if 1 < st.aliases.length then st.aliases.drop 1 else []
  let cmd := (((((Command.new [] description).withUsage st.usage).withAliases
    aliases).withFlags st.flags).withSubcommands st.subcommands)
  (cmd, st.global_flags, st.groups)

/-- `parse_help_output`. -/
def parse_help_output (text : Str) : Command × List Flag × List CommandGroup :=
  parseLines (linesOf text)

/-! ## Tree assembler (`build_command_tree`).  `run_help` performs process
I/O and is out of scope; it is the oracle parameter `runHelp`. -/

/-- The depth-2 loop (`parser.rs` lines 344-356): enrich and insert each
depth-2 stub of `parsed.subcommands` into the depth-1 entry. -/
def enrichDepth2 {ε : Type} (runHelp : List Str → Except ε Str) (binary name : Str)
    (entry : Command) (parsedSubs : List (Str × Command)) : Command :=
  parsedSubs.foldl (fun e p =>
    let sub_cmd :=
      match runHelp [binary, name, p.1] with
      | .error _ => p.2
      | .ok sub_sub_help =>
        let parsed2 := (parse_help_output sub_sub_help).1
        (((p.2.withFlags parsed2.flags).withAliases parsed2.aliases).withUsage
          parsed2.usage).withSubcommands parsed2.subcommands
    e.withSubcommands (insertAL e.subcommands p.1 sub_cmd)) entry

/-- One iteration of the depth-1 loop of `build_command_tree`. -/
def stepName {ε : Type} (runHelp : List Str → Except ε Str) (binary : Str)
    (root : Command) (name : Str) : Command :=
  match runHelp [binary, name] with
  | .error _ => root
  | .ok sub_help =>
    let parsed := (parse_help_output sub_help).1
    match lookupAL root.subcommands name with
    | none => root
    | some entry =>
      let entry := ((entry.withFlags parsed.flags).withAliases
        parsed.aliases).withUsage parsed.usage
      let entry :=
        if parsed.subcommands.isEmpty then entry
        else enrichDepth2 runHelp binary name entry parsed.subcommands
      root.withSubcommands (insertAL root.subcommands name entry)

/-- `build_command_tree`. -/
def build_command_tree {ε : Type} (runHelp : List Str → Except ε Str)
    (binary : Str) : Except ε CommandTree :=
  match runHelp [binary] with
  | .error e => .error e
  | .ok help_text =>
    let parsedRoot := parse_help_output help_text
    let root1 := parsedRoot.1.withName binary
    let root2 := (keysAL root1.subcommands).foldl (stepName runHelp binary) root1
    .ok { root := root2,
          global_flags := if parsedRoot.2.1 = [] then root2.flags else parsedRoot.2.1,
          groups := parsedRoot.2.2 }

/-! ## Basic lemmas about the data model -/

@[simp] theorem Command.name_mk (n d a u f s g) : (Command.mk n d a u f s g).name = n := rfl

@[simp] theorem Command.description_mk (n d a u f s g) :
    (Command.mk n d a u f s g).description = d := rfl

@[simp] theorem Command.aliases_mk (n d a u f s g) : (Command.mk n d a u f s g).aliases = a := rfl

@[simp] theorem Command.usage_mk (n d a u f s g) : (Command.mk n d a u f s g).usage = u := rfl

@[simp] theorem Command.flags_mk (n d a u f s g) : (Command.mk n d a u f s g).flags = f := rfl

@[simp] theorem Command.subcommands_mk (n d a u f s g) :
    (Command.mk n d a u f s g).subcommands = s := rfl

@[simp] theorem Command.group_mk (n d a u f s g) : (Command.mk n d a u f s g).group = g := rfl

@[simp] theorem Command.new_name (n d) : (Command.new n d).name = n := rfl

@[simp] theorem Command.new_description (n d) : (Command.new n d).description = d := rfl

@[simp] theorem Command.new_aliases (n d) : (Command.new n d).aliases = [] := rfl

@[simp] theorem Command.new_usage (n d) : (Command.new n d).usage = none := rfl

@[simp] theorem Command.new_flags (n d) : (Command.new n d).flags = [] := rfl

@[simp] theorem Command.new_subcommands (n d) : (Command.new n d).subcommands = [] := rfl

@[simp] theorem Command.new_group (n d) : (Command.new n d).group = none := rfl

@[simp] theorem Command.withGroup_name (c o) : (Command.withGroup c o).name = c.name := by
  cases c <;> rfl

@[simp] theorem Command.withGroup_description (c o) :
    (Command.withGroup c o).description = c.description := by cases c <;> rfl

@[simp] theorem Command.withGroup_aliases (c o) :
    (Command.withGroup c o).aliases = c.aliases := by cases c <;> rfl

@[simp] theorem Command.withGroup_usage (c o) : (Command.withGroup c o).usage = c.usage := by
  cases c <;> rfl

@[simp] theorem Command.withGroup_flags (c o) : (Command.withGroup c o).flags = c.flags := by
  cases c <;> rfl

@[simp] theorem Command.withGroup_subcommands (c o) :
    (Command.withGroup c o).subcommands = c.subcommands := by cases c <;> rfl

@[simp] theorem Command.withGroup_group (c o) : (Command.withGroup c o).group = o := by
  cases c <;> rfl

@[simp] theorem Command.withName_name (c n) : (Command.withName c n).name = n := by
  cases c <;> rfl

@[simp] theorem Command.withName_flags (c n) : (Command.withName c n).flags = c.flags := by
  cases c <;> rfl

@[simp] theorem Command.withName_aliases (c n) : (Command.withName c n).aliases = c.aliases := by
  cases c <;> rfl

@[simp] theorem Command.withName_usage (c n) : (Command.withName c n).usage = c.usage := by
  cases c <;> rfl

@[simp] theorem Command.withName_subcommands (c n) :
    (Command.withName c n).subcommands = c.subcommands := by cases c <;> rfl

@[simp] theorem Command.withFlags_flags (c f) : (Command.withFlags c f).flags = f := by
  cases c <;> rfl

@[simp] theorem Command.withFlags_name (c f) : (Command.withFlags c f).name = c.name := by
  cases c <;> rfl

@[simp] theorem Command.withFlags_aliases (c f) :
    (Command.withFlags c f).aliases = c.aliases := by cases c <;> rfl

@[simp] theorem Command.withFlags_usage (c f) : (Command.withFlags c f).usage = c.usage := by
  cases c <;> rfl

@[simp] theorem Command.withFlags_subcommands (c f) :
    (Command.withFlags c f).subcommands = c.subcommands := by cases c <;> rfl

@[simp] theorem Command.withFlags_group (c f) : (Command.withFlags c f).group = c.group := by
  cases c <;> rfl

@[simp] theorem Command.withAliases_aliases (c a) : (Command.withAliases c a).aliases = a := by
  cases c <;> rfl

@[simp] theorem Command.withAliases_name (c a) : (Command.withAliases c a).name = c.name := by
  cases c <;> rfl

@[simp] theorem Command.withAliases_flags (c a) : (Command.withAliases c a).flags = c.flags := by
  cases c <;> rfl

@[simp] theorem Command.withAliases_usage (c a) : (Command.withAliases c a).usage = c.usage := by
  cases c <;> rfl

@[simp] theorem Command.withAliases_subcommands (c a) :
    (Command.withAliases c a).subcommands = c.subcommands := by cases c <;> rfl

@[simp] theorem Command.withAliases_group (c a) : (Command.withAliases c a).group = c.group := by
  cases c <;> rfl

@[simp] theorem Command.withUsage_usage (c u) : (Command.withUsage c u).usage = u := by
  cases c <;> rfl

@[simp] theorem Command.withUsage_name (c u) : (Command.withUsage c u).name = c.name := by
  cases c <;> rfl

@[simp] theorem Command.withUsage_flags (c u) : (Command.withUsage c u).flags = c.flags := by
  cases c <;> rfl

@[simp] theorem Command.withUsage_aliases (c u) : (Command.withUsage c u).aliases = c.aliases := by
  cases c <;> rfl

@[simp] theorem Command.withUsage_subcommands (c u) :
    (Command.withUsage c u).subcommands = c.subcommands := by cases c <;> rfl

@[simp] theorem Command.withUsage_group (c u) : (Command.withUsage c u).group = c.group := by
  cases c <;> rfl

@[simp] theorem Command.withSubcommands_subcommands (c s) :
    (Command.withSubcommands c s).subcommands = s := by cases c <;> rfl

@[simp] theorem Command.withSubcommands_name (c s) :
    (Command.withSubcommands c s).name = c.name := by cases c <;> rfl

@[simp] theorem Command.withSubcommands_flags (c s) :
    (Command.withSubcommands c s).flags = c.flags := by cases c <;> rfl

@[simp] theorem Command.withSubcommands_aliases (c s) :
    (Command.withSubcommands c s).aliases = c.aliases := by cases c <;> rfl

@[simp] theorem Command.withSubcommands_usage (c s) :
    (Command.withSubcommands c s).usage = c.usage := by cases c <;> rfl

@[simp] theorem Command.withSubcommands_group (c s) :
    (Command.withSubcommands c s).group = c.group := by cases c <;> rfl

/-! ### Association-list lemmas -/

theorem strLt_irrefl (s : Str) : strLt s s = false := by
  induction s with
  | nil => rfl
  | cons a as ih => simp [strLt, ih]

theorem lookupAL_insert_self (m : List (Str × Command)) (k : Str) (v : Command) :
    lookupAL (insertAL m k v) k = some v := by
  induction m with
  | nil => simp [insertAL, lookupAL]
  | cons p rest ih =>
    obtain ⟨k', v'⟩ := p
    by_cases hlt : strLt k k' = true
    · simp [insertAL, hlt, lookupAL]
    · by_cases heq : k = k'
      · subst heq
        simp [insertAL, strLt_irrefl, lookupAL]
      · simp [insertAL, hlt, heq, lookupAL, ih]

theorem lookupAL_insert_ne (m : List (Str × Command)) (k : Str) (v : Command) (n : Str)
    (h : n ≠ k) : lookupAL (insertAL m k v) n = lookupAL m n := by
  induction m with
  | nil => simp [insertAL, lookupAL, h]
  | cons p rest ih =>
    obtain ⟨k', v'⟩ := p
    by_cases hlt : strLt k k' = true
    · simp [insertAL, hlt, lookupAL, h]
    · by_cases heq : k = k'
      · subst heq
        simp [insertAL, strLt_irrefl, lookupAL, h]
      · simp only [insertAL, hlt, heq, if_false, Bool.false_eq_true]
        by_cases hk' : n = k'
        · simp [lookupAL, hk']
        · simp [lookupAL, hk', ih]

theorem lookupAL_mem (m : List (Str × Command)) (n : Str) (c : Command)
    (h : lookupAL m n = some c) : (n, c) ∈ m := by
  induction m with
  | nil => simp [lookupAL] at h
  | cons p rest ih =>
    obtain ⟨k, v⟩ := p
    by_cases hk : n = k
    · subst hk
      obtain rfl : v = c := by
        rw [lookupAL, if_pos rfl] at h
        exact Option.some.inj h
      exact List.mem_cons_self _ _
    · simp only [lookupAL, if_neg hk] at h
      exact List.mem_cons_of_mem _ (ih h)

theorem mem_insertAL (m : List (Str × Command)) (k : Str) (v : Command) (p : Str × Command)
    (h : p ∈ insertAL m k v) : p = (k, v) ∨ p ∈ m := by
  induction m with
  | nil =>
    simp only [insertAL, List.mem_singleton] at h
    exact Or.inl h
  | cons q rest ih =>
    obtain ⟨k', v'⟩ := q
    by_cases hlt : strLt k k' = true
    · rw [insertAL, if_pos hlt] at h
      rcases List.mem_cons.mp h with h | h
      · exact Or.inl h
      · exact Or.inr h
    · by_cases heq : k = k'
      · rw [insertAL, if_neg (by simp [hlt]), if_pos heq] at h
        rcases List.mem_cons.mp h with h | h
        · exact Or.inl h
        · exact Or.inr (List.mem_cons_of_mem _ h)
      · rw [insertAL, if_neg (by simp [hlt]), if_neg heq] at h
        rcases List.mem_cons.mp h with h | h
        · exact Or.inr (by simp [h])
        · rcases ih h with h' | h'
          · exact Or.inl h'
          · exact Or.inr (List.mem_cons_of_mem _ h')

theorem lookupAL_insert_or (m : List (Str × Command)) (k : Str) (v : Command) (n : Str)
    (c : Command) (h : lookupAL (insertAL m k v) n = some c) :
    c = v ∨ lookupAL m n = some c := by
  by_cases hk : n = k
  · subst hk
    rw [lookupAL_insert_self] at h
    exact Or.inl (Option.some.inj h).symm
  · rw [lookupAL_insert_ne _ _ _ _ hk] at h
    exact Or.inr h

/-! ### Generic fold-invariant helper -/

theorem foldl_inv {α : Type} {β : Type} (f : α → β → α) (P : α → Prop)
    (h : ∀ a b, P a → P (f a b)) : ∀ (l : List β) (a : α), P a → P (l.foldl f a) := by
  intro l
  induction l with
  | nil => intro a ha; exact ha
  | cons b bs ih => intro a ha; exact ih _ (h a b ha)

/-! ### `flushGroup` only touches `groups`, `cur_name`, `cur_cmds` -/

@[simp] theorem flushGroup_subcommands (st : PState) :
    (flushGroup st).subcommands = st.subcommands := by
  unfold flushGroup
  cases st.cur_name with
  | none => rfl
  | some g => by_cases h : st.cur_cmds = [] <;> simp [h]

@[simp] theorem flushGroup_aliases (st : PState) : (flushGroup st).aliases = st.aliases := by
  unfold flushGroup
  cases st.cur_name with
  | none => rfl
  | some g => by_cases h : st.cur_cmds = [] <;> simp [h]

@[simp] theorem flushGroup_flags (st : PState) : (flushGroup st).flags = st.flags := by
  unfold flushGroup
  cases st.cur_name with
  | none => rfl
  | some g => by_cases h : st.cur_cmds = [] <;> simp [h]

@[simp] theorem flushGroup_global_flags (st : PState) :
    (flushGroup st).global_flags = st.global_flags := by
  unfold flushGroup
  cases st.cur_name with
  | none => rfl
  | some g => by_cases h : st.cur_cmds = [] <;> simp [h]

@[simp] theorem flushGroup_usage (st : PState) : (flushGroup st).usage = st.usage := by
  unfold flushGroup
  cases st.cur_name with
  | none => rfl
  | some g => by_cases h : st.cur_cmds = [] <;> simp [h]

@[simp] theorem flushGroup_description_lines (st : PState) :
    (flushGroup st).description_lines = st.description_lines := by
  unfold flushGroup
  cases st.cur_name with
  | none => rfl
  | some g => by_cases h : st.cur_cmds = [] <;> simp [h]

@[simp] theorem flushGroup_sect (st : PState) : (flushGroup st).sect = st.sect := by
  unfold flushGroup
  cases st.cur_name with
  | none => rfl
  | some g => by_cases h : st.cur_cmds = [] <;> simp [h]

theorem flushGroup_cur_name (st : PState) (h : st.cur_name = none → st.cur_cmds = []) :
    (flushGroup st).cur_name = none ∧ (flushGroup st).cur_cmds = [] := by
  unfold flushGroup
  cases hc : st.cur_name with
  | none => exact ⟨hc, h hc⟩
  | some g => by_cases hm : st.cur_cmds = [] <;> simp [hm]

/-! ### All parsed subcommand entries are stubs -/

/-- A stub command, as produced by `parse_command_line` via `Command::new`. -/
def IsStub (c : Command) : Prop :=
  c.flags = [] ∧ c.aliases = [] ∧ c.usage = none ∧ c.subcommands = []

theorem parse_command_line_stub (l : Str) (c : Command)
    (h : parse_command_line l = some c) : IsStub c := by
  simp only [parse_command_line] at h
  split at h
  · exact absurd h (by simp)
  · split at h
    · exact absurd h (by simp)
    · obtain rfl : Command.new _ _ = c := Option.some.inj h
      exact ⟨rfl, rfl, rfl, rfl⟩

theorem stepLine_stub (st : PState) (l : Str)
    (h : ∀ p ∈ st.subcommands, IsStub p.2) :
    ∀ p ∈ (stepLine st l).subcommands, IsStub p.2 := by
  intro p hp
  by_cases hh : isHeaderLine l = true
  · rw [stepLine, if_pos hh] at hp
    simp only at hp
    split_ifs at hp <;> (simp only [flushGroup_subcommands] at hp; exact h p hp)
  · rw [stepLine, if_neg hh] at hp
    simp only at hp
    by_cases ht : trimL l = []
    · rw [if_pos ht] at hp
      exact h p hp
    · rw [if_neg ht] at hp
      cases hs : st.sect with
      | Preamble =>
        rw [hs] at hp
        split_ifs at hp <;> (simp only at hp; exact h p hp)
      | Usage =>
        rw [hs] at hp
        split_ifs at hp <;> (simp only at hp; exact h p hp)
      | Aliases =>
        rw [hs] at hp
        exact h p hp
      | Commands g =>
        rw [hs] at hp
        cases hc : parse_command_line (trimL l) with
        | none => rw [hc] at hp; exact h p hp
        | some c =>
          rw [hc] at hp
          simp only at hp
          rcases mem_insertAL _ _ _ _ hp with h' | h'
          · have hstub := parse_command_line_stub _ _ hc
            rw [h']
            refine ⟨?_, ?_, ?_, ?_⟩ <;> simp [hstub.1, hstub.2.1, hstub.2.2.1, hstub.2.2.2]
          · exact h p h'
      | Flags =>
        rw [hs] at hp
        cases hc : parse_flag_line (trimL l) with
        | none => rw [hc] at hp; exact h p hp
        | some f => rw [hc] at hp; exact h p hp
      | GlobalFlags =>
        rw [hs] at hp
        cases hc : parse_flag_line (trimL l) with
        | none => rw [hc] at hp; exact h p hp
        | some f => rw [hc] at hp; exact h p hp

theorem parse_help_output_stub (text : Str) :
    ∀ p ∈ (parse_help_output text).1.subcommands, IsStub p.2 := by
  have hfold : ∀ p ∈ ((linesOf text).foldl stepLine initPState).subcommands, IsStub p.2 := by
    refine foldl_inv stepLine (fun st => ∀ p ∈ st.subcommands, IsStub p.2) ?_ _ _ ?_
    · exact fun st l hst => stepLine_stub st l hst
    · intro p hp
      simp [initPState] at hp
  intro p hp
  simp only [parse_help_output, parseLines, Command.withSubcommands_subcommands,
    flushGroup_subcommands] at hp
  exact hfold p hp

theorem parse_help_output_lookup_stub (text : Str) (n : Str) (c : Command)
    (h : lookupAL (parse_help_output text).1.subcommands n = some c) : IsStub c :=
  parse_help_output_stub text (n, c) (lookupAL_mem _ _ _ h)

/-! ### Characterizing the token loop of `parse_flag_line` -/

theorem getLast?_cons' {α : Type} (a : α) (l : List α) :
    (a :: l).getLast? = some (l.getLast?.getD a) := by
  induction l generalizing a with
  | nil => rfl
  | cons b bs ih => rw [List.getLast?_cons_cons, ih b]; simp

/-- The last whitespace token of the flag segment that, after stripping
trailing commas, is nonempty and does not start with a dash.  The token loop
of `parse_flag_line` leaves exactly this token in `value_type`. -/
def lastValueTok (toks : List Str) : Option Str :=
  ((toks.map (dropTrailing ',')).filter
    (fun t => !decide (t = []) && !startsWithChar t '-')).getLast?

/-- The last whitespace token of the flag segment that, after stripping
trailing commas, starts with `--`.  The token loop leaves its dash-stripped
form in `long`. -/
def lastLongTok (toks : List Str) : Option Str :=
  ((toks.map (dropTrailing ',')).filter
    (fun t => ("--".toList).isPrefixOf t)).getLast?

theorem startsWithChar_of_prefix_dashdash (t : Str)
    (h : ("--".toList).isPrefixOf t = true) : startsWithChar t '-' = true := by
  have h0 : ("--".toList : List Char) = ['-', '-'] := rfl
  rw [h0] at h
  cases t with
  | nil => simp [List.isPrefixOf] at h
  | cons c cs =>
    simp only [List.isPrefixOf, Bool.and_eq_true, beq_iff_eq] at h
    cases h.1
    simp [startsWithChar]

theorem flagTokFold_value_type (toks : List Str) : ∀ acc : FlagAcc,
    (toks.foldl flagTokStep acc).value_type =
      match lastValueTok toks with
      | some t => some t
      | none => acc.value_type := by
  induction toks with
  | nil => intro acc; rfl
  | cons t ts ih =>
    intro acc
    rw [List.foldl_cons, ih]
    have hlv : lastValueTok (t :: ts) =
        (if (!decide (dropTrailing ',' t = []) && !startsWithChar (dropTrailing ',' t) '-') = true
         then ((lastValueTok ts).getD (dropTrailing ',' t) |> some)
         else lastValueTok ts) := by
      simp only [lastValueTok, List.map_cons, List.filter_cons]
      split
      · rw [getLast?_cons']
      · rfl
    by_cases h1 : ("--".toList).isPrefixOf (dropTrailing ',' t) = true
    · have hsw := startsWithChar_of_prefix_dashdash _ h1
      have hstep : flagTokStep acc t =
          { acc with long := (dropTrailing ',' t).dropWhile (· == '-') } := by
        simp only [flagTokStep]
        rw [if_pos h1]
      rw [hstep, hlv, if_neg (by simp [hsw])]
    · by_cases h2 : (startsWithChar (dropTrailing ',' t) '-' && byteLen (dropTrailing ',' t) == 2) = true
      · have hsw : startsWithChar (dropTrailing ',' t) '-' = true :=
          (Bool.and_eq_true _ _ |>.mp h2).1
        have hstep : flagTokStep acc t =
            { acc with short := ((dropTrailing ',' t).drop 1).head? } := by
          simp only [flagTokStep]
          rw [if_neg h1, if_pos h2]
        rw [hstep, hlv, if_neg (by simp [hsw])]
      · by_cases h3 : (!decide (dropTrailing ',' t = []) && !startsWithChar (dropTrailing ',' t) '-') = true
        · have hstep : flagTokStep acc t = { acc with value_type := some (dropTrailing ',' t) } := by
            simp only [flagTokStep]
            rw [if_neg h1, if_neg h2, if_pos h3]
          rw [hstep, hlv, if_pos h3]
          cases hts : lastValueTok ts <;> simp
        · have hstep : flagTokStep acc t = acc := by
            simp only [flagTokStep]
            rw [if_neg h1, if_neg h2, if_neg h3]
          rw [hstep, hlv, if_neg h3]

theorem flagTokFold_long (toks : List Str) : ∀ acc : FlagAcc,
    (toks.foldl flagTokStep acc).long =
      match lastLongTok toks with
      | some t => t.dropWhile (· == '-')
      | none => acc.long := by
  induction toks with
  | nil => intro acc; rfl
  | cons t ts ih =>
    intro acc
    rw [List.foldl_cons, ih]
    have hlv : lastLongTok (t :: ts) =
        (if (("--".toList).isPrefixOf (dropTrailing ',' t)) = true
         then ((lastLongTok ts).getD (dropTrailing ',' t) |> some)
         else lastLongTok ts) := by
      simp only [lastLongTok, List.map_cons, List.filter_cons]
      split
      · rw [getLast?_cons']
      · rfl
    by_cases h1 : ("--".toList).isPrefixOf (dropTrailing ',' t) = true
    · have hstep : flagTokStep acc t =
          { acc with long := (dropTrailing ',' t).dropWhile (· == '-') } := by
        simp only [flagTokStep]
        rw [if_pos h1]
      rw [hstep, hlv, if_pos h1]
      cases hts : lastLongTok ts <;> simp
    · by_cases h2 : (startsWithChar (dropTrailing ',' t) '-' && byteLen (dropTrailing ',' t) == 2) = true
      · have hstep : flagTokStep acc t =
            { acc with short := ((dropTrailing ',' t).drop 1).head? } := by
          simp only [flagTokStep]
          rw [if_neg h1, if_pos h2]
        rw [hstep, hlv, if_neg h1]
      · by_cases h3 : (!decide (dropTrailing ',' t = []) && !startsWithChar (dropTrailing ',' t) '-') = true
        · have hstep : flagTokStep acc t = { acc with value_type := some (dropTrailing ',' t) } := by
            simp only [flagTokStep]
            rw [if_neg h1, if_neg h2, if_pos h3]
          rw [hstep, hlv, if_neg h1]
        · have hstep : flagTokStep acc t = acc := by
            simp only [flagTokStep]
            rw [if_neg h1, if_neg h2, if_neg h3]
          rw [hstep, hlv, if_neg h1]

/-! ## Claim C1 -/

/-- C1, counterexample: the flag line `  --db foo bar` inside a `Flags:`
section has no trailing bare word from the closed value-type keyword set
(`bar` is not a keyword), yet the parsed flag has `value_type = some "bar"`,
not `none`: the token loop records ANY non-dash token, not only keywords. -/
theorem C1_counterexample :
    ((parse_help_output ("Flags:\n  --db foo bar".toList)).1.flags.map Flag.value_type
      = [some ("bar".toList)])
    ∧ is_value_type ("bar".toList) = false := by
  constructor
  · decide
  · decide

/-- C1 (amended): for every flag line accepted by `parse_flag_line`, the
parsed `value_type` is `some` of the last whitespace token of the flag
segment that, after stripping trailing commas, is nonempty and does not
start with `-` (`lastValueTok`), and `none` when the flag segment has no
such token.  The closed value-type keyword set only influences where the
flag segment ends (`split_flag_description`); within the flag segment any
bare non-dash token is recorded, keywords or not. -/
theorem C1_theorem (l : Str) (f : Flag) (h : parse_flag_line l = some f) :
    f.value_type = lastValueTok (splitWhitespaceL (split_flag_description (trimL l)).1) := by
  simp only [parse_flag_line] at h
  split at h
  · exact absurd h (by simp)
  · split at h
    · exact absurd h (by simp)
    · obtain rfl := Option.some.inj h
      show (List.foldl flagTokStep initFlagAcc _).value_type = _
      rw [flagTokFold_value_type]
      cases hts : lastValueTok (splitWhitespaceL (split_flag_description (trimL l)).1) <;> rfl

/-- C1, witness: `C1_theorem` applied to a concrete flag line. -/
theorem C1_witness :
    parse_flag_line ("      --db string   Database path".toList) = some
      ⟨"db".toList, none, "Database path".toList, some ("string".toList), none⟩ ∧
    (⟨"db".toList, none, "Database path".toList, some ("string".toList), none⟩ : Flag).value_type
      = lastValueTok (splitWhitespaceL
          (split_flag_description (trimL ("      --db string   Database path".toList))).1) :=
  ⟨by decide, C1_theorem _ _ (by decide)⟩

/-! ## Claim C2: the group/subcommand agreement invariant -/

theorem mem_of_getLast?' {α : Type} {l : List α} {a : α} (h : l.getLast? = some a) : a ∈ l := by
  induction l with
  | nil => simp at h
  | cons b bs ih =>
    rw [getLast?_cons'] at h
    cases hbs : bs.getLast? with
    | none =>
      rw [hbs] at h
      simp only [Option.getD_none, Option.some.injEq] at h
      simp [h]
    | some x =>
      rw [hbs] at h
      simp only [Option.getD_some, Option.some.injEq] at h
      subst h
      exact List.mem_cons_of_mem _ (ih hbs)

/-- The flushed groups together with the currently open group buffer. -/
def occs (st : PState) : List CommandGroup :=
  st.groups ++ (match st.cur_name with
                | some g => [⟨g, st.cur_cmds⟩]
                | none => [])

/-- The groups (in order) whose command lists contain `n`. -/
def groupsFor (n : Str) (l : List CommandGroup) : List CommandGroup :=
  l.filter (fun g => decide (n ∈ g.commands))

/-- Invariant of the `parse_help_output` fold: the section and the open group
buffer agree, and every name occurring in a (flushed or open) group is a key
of the subcommand map whose stored `group` is the name of the last group
containing that name. -/
def GoodState (st : PState) : Prop :=
  (∀ g, st.sect = Section.Commands g → st.cur_name = some g) ∧
  (st.cur_name = none → st.cur_cmds = []) ∧
  (∀ n gl, (groupsFor n (occs st)).getLast? = some gl →
    ∃ c, lookupAL st.subcommands n = some c ∧ c.group = some gl.name)

theorem occs_of_cur_none (st : PState) (h : st.cur_name = none) : occs st = st.groups := by
  simp [occs, h]

theorem groupsFor_append_mem (n : Str) (A : List CommandGroup) (e : CommandGroup)
    (h : n ∈ e.commands) : groupsFor n (A ++ [e]) = groupsFor n A ++ [e] := by
  simp [groupsFor, List.filter_append, h]

theorem groupsFor_append_not_mem (n : Str) (A : List CommandGroup) (e : CommandGroup)
    (h : ¬ n ∈ e.commands) : groupsFor n (A ++ [e]) = groupsFor n A := by
  simp [groupsFor, List.filter_append, h]

theorem flush_occs (st : PState) (n : Str) :
    groupsFor n (occs (flushGroup st)) = groupsFor n (occs st) := by
  cases hc : st.cur_name with
  | none => simp [flushGroup, hc]
  | some g =>
    by_cases hm : st.cur_cmds = []
    · simp [flushGroup, hc, hm, occs, groupsFor, List.filter_append]
    · simp [flushGroup, hc, hm, occs, groupsFor, List.filter_append]

theorem good_init : GoodState initPState := by
  refine ⟨?_, ?_, ?_⟩
  · intro g hg; cases hg
  · intro _; rfl
  · intro n gl hgl
    simp [occs, initPState, groupsFor] at hgl

theorem good_setSect (st : PState) (h : GoodState st) (s : Section)
    (hns : ∀ g, s ≠ Section.Commands g) :
    GoodState { flushGroup st with sect := s } := by
  obtain ⟨hsec, hcinv, hinv⟩ := h
  have hfc := flushGroup_cur_name st hcinv
  refine ⟨?_, ?_, ?_⟩
  · intro g hg
    exact absurd hg (hns g)
  · intro _
    exact hfc.2
  · intro n gl hgl
    have hocc : occs { flushGroup st with sect := s } = occs (flushGroup st) := rfl
    rw [hocc, flush_occs] at hgl
    obtain ⟨c, hc1, hc2⟩ := hinv n gl hgl
    refine ⟨c, ?_, hc2⟩
    show lookupAL (flushGroup st).subcommands n = some c
    rw [flushGroup_subcommands]
    exact hc1

theorem good_setGroup (st : PState) (h : GoodState st) (header : Str) :
    GoodState { flushGroup st with cur_name := some header, sect := Section.Commands header } := by
  obtain ⟨hsec, hcinv, hinv⟩ := h
  have hfc := flushGroup_cur_name st hcinv
  refine ⟨?_, ?_, ?_⟩
  · intro g hg
    have hg' : Section.Commands header = Section.Commands g := hg
    injection hg' with hgg
    show some header = some g
    rw [hgg]
  · intro h0
    exact absurd (h0 : some header = none) (by simp)
  · intro n gl hgl
    have hocc : occs { flushGroup st with cur_name := some header, sect := Section.Commands header }
        = (flushGroup st).groups ++ [⟨header, (flushGroup st).cur_cmds⟩] := rfl
    rw [hocc, hfc.2] at hgl
    have he : groupsFor n ((flushGroup st).groups ++ [⟨header, []⟩])
        = groupsFor n (occs (flushGroup st)) := by
      rw [occs_of_cur_none _ hfc.1]
      simp [groupsFor, List.filter_append]
    rw [he, flush_occs] at hgl
    obtain ⟨c, hc1, hc2⟩ := hinv n gl hgl
    refine ⟨c, ?_, hc2⟩
    show lookupAL (flushGroup st).subcommands n = some c
    rw [flushGroup_subcommands]
    exact hc1

theorem good_of_same (st st' : PState) (h : GoodState st)
    (h1 : st'.sect = st.sect) (h2 : st'.cur_name = st.cur_name)
    (h3 : st'.cur_cmds = st.cur_cmds) (h4 : st'.groups = st.groups)
    (h5 : st'.subcommands = st.subcommands) : GoodState st' := by
  obtain ⟨hsec, hcinv, hinv⟩ := h
  refine ⟨?_, ?_, ?_⟩
  · intro g hg
    rw [h2]
    exact hsec g (h1 ▸ hg)
  · intro hn
    rw [h3]
    exact hcinv (h2 ▸ hn)
  · intro n gl hgl
    have : occs st' = occs st := by simp [occs, h2, h3, h4]
    rw [this] at hgl
    rw [h5]
    exact hinv n gl hgl

/-! ### Equation lemmas for `stepLine`, one per branch -/

theorem stepLine_skip_blank (st : PState) (l : Str) (hh : isHeaderLine l = false)
    (ht : trimL l = []) : stepLine st l = st := by
  simp only [stepLine]
  rw [if_neg (by simp [hh]), if_pos ht]

theorem stepLine_preamble_use (st : PState) (l : Str) (hh : isHeaderLine l = false)
    (ht : ¬ trimL l = []) (hs : st.sect = Section.Preamble)
    (hp : ("Use \"".toList).isPrefixOf (trimL l) = true) : stepLine st l = st := by
  simp only [stepLine]
  rw [if_neg (by simp [hh]), if_neg ht, hs]
  simp only
  rw [if_pos hp]

theorem stepLine_preamble_add (st : PState) (l : Str) (hh : isHeaderLine l = false)
    (ht : ¬ trimL l = []) (hs : st.sect = Section.Preamble)
    (hp : ¬ ("Use \"".toList).isPrefixOf (trimL l) = true) :
    stepLine st l = { st with description_lines := st.description_lines ++ [trimL l] } := by
  simp only [stepLine]
  rw [if_neg (by simp [hh]), if_neg ht, hs]
  simp only
  rw [if_neg hp]

theorem stepLine_usage_new (st : PState) (l : Str) (hh : isHeaderLine l = false)
    (ht : ¬ trimL l = []) (hs : st.sect = Section.Usage) (hu : st.usage = none) :
    stepLine st l = { st with usage := some (trimL l) } := by
  simp only [stepLine]
  rw [if_neg (by simp [hh]), if_neg ht, hs]
  simp only
  rw [if_pos hu]

theorem stepLine_usage_keep (st : PState) (l : Str) (hh : isHeaderLine l = false)
    (ht : ¬ trimL l = []) (hs : st.sect = Section.Usage) (hu : ¬ st.usage = none) :
    stepLine st l = st := by
  simp only [stepLine]
  rw [if_neg (by simp [hh]), if_neg ht, hs]
  simp only
  rw [if_neg hu]

theorem stepLine_aliases (st : PState) (l : Str) (hh : isHeaderLine l = false)
    (ht : ¬ trimL l = []) (hs : st.sect = Section.Aliases) :
    stepLine st l = { st with aliases := st.aliases ++ commaTokens (trimL l) } := by
  simp only [stepLine]
  rw [if_neg (by simp [hh]), if_neg ht, hs]

theorem stepLine_commands_none (st : PState) (l : Str) (g : Str)
    (hh : isHeaderLine l = false) (ht : ¬ trimL l = [])
    (hs : st.sect = Section.Commands g) (hc : parse_command_line (trimL l) = none) :
    stepLine st l = st := by
  simp only [stepLine]
  rw [if_neg (by simp [hh]), if_neg ht, hs]
  simp only
  rw [hc]

theorem stepLine_commands_some (st : PState) (l : Str) (g : Str) (c0 : Command)
    (hh : isHeaderLine l = false) (ht : ¬ trimL l = [])
    (hs : st.sect = Section.Commands g) (hc : parse_command_line (trimL l) = some c0) :
    stepLine st l = { st with cur_cmds := st.cur_cmds ++ [(c0.withGroup (some g)).name], subcommands := insertAL st.subcommands (c0.withGroup (some g)).name (c0.withGroup (some g)) } := by
  simp only [stepLine]
  rw [if_neg (by simp [hh]), if_neg ht, hs]
  simp only
  rw [hc]

theorem stepLine_flags_none (st : PState) (l : Str) (hh : isHeaderLine l = false)
    (ht : ¬ trimL l = []) (hs : st.sect = Section.Flags)
    (hc : parse_flag_line (trimL l) = none) : stepLine st l = st := by
  simp only [stepLine]
  rw [if_neg (by simp [hh]), if_neg ht, hs]
  simp only
  rw [hc]

theorem stepLine_flags_some (st : PState) (l : Str) (f : Flag) (hh : isHeaderLine l = false)
    (ht : ¬ trimL l = []) (hs : st.sect = Section.Flags)
    (hc : parse_flag_line (trimL l) = some f) :
    stepLine st l = { st with flags := st.flags ++ [f] } := by
  simp only [stepLine]
  rw [if_neg (by simp [hh]), if_neg ht, hs]
  simp only
  rw [hc]

theorem stepLine_gflags_none (st : PState) (l : Str) (hh : isHeaderLine l = false)
    (ht : ¬ trimL l = []) (hs : st.sect = Section.GlobalFlags)
    (hc : parse_flag_line (trimL l) = none) : stepLine st l = st := by
  simp only [stepLine]
  rw [if_neg (by simp [hh]), if_neg ht, hs]
  simp only
  rw [hc]

theorem stepLine_gflags_some (st : PState) (l : Str) (f : Flag) (hh : isHeaderLine l = false)
    (ht : ¬ trimL l = []) (hs : st.sect = Section.GlobalFlags)
    (hc : parse_flag_line (trimL l) = some f) :
    stepLine st l = { st with global_flags := st.global_flags ++ [f] } := by
  simp only [stepLine]
  rw [if_neg (by simp [hh]), if_neg ht, hs]
  simp only
  rw [hc]

theorem good_step (st : PState) (l : Str) (h : GoodState st) :
    GoodState (stepLine st l) := by
  by_cases hh : isHeaderLine l = true
  · rw [stepLine, if_pos hh]
    simp only
    split_ifs
    · exact good_setSect st h _ (by intro g hg; cases hg)
    · exact good_setSect st h _ (by intro g hg; cases hg)
    · exact good_setSect st h _ (by intro g hg; cases hg)
    · exact good_setSect st h _ (by intro g hg; cases hg)
    · exact good_setGroup st h _
  · rw [Bool.not_eq_true] at hh
    by_cases ht : trimL l = []
    · rw [stepLine_skip_blank st l hh ht]
      exact h
    · cases hsect : st.sect with
      | Preamble =>
        by_cases hp : ("Use \"".toList).isPrefixOf (trimL l) = true
        · rw [stepLine_preamble_use st l hh ht hsect hp]
          exact h
        · rw [stepLine_preamble_add st l hh ht hsect hp]
          exact good_of_same _ _ h rfl rfl rfl rfl rfl
      | Usage =>
        by_cases hu : st.usage = none
        · rw [stepLine_usage_new st l hh ht hsect hu]
          exact good_of_same _ _ h rfl rfl rfl rfl rfl
        · rw [stepLine_usage_keep st l hh ht hsect hu]
          exact h
      | Aliases =>
        rw [stepLine_aliases st l hh ht hsect]
        exact good_of_same _ _ h rfl rfl rfl rfl rfl
      | Commands g =>
        cases hc : parse_command_line (trimL l) with
        | none =>
          rw [stepLine_commands_none st l g hh ht hsect hc]
          exact h
        | some c0 =>
          rw [stepLine_commands_some st l g c0 hh ht hsect hc]
          obtain ⟨hsec, hcinv, hinv⟩ := h
          have hcur : st.cur_name = some g := hsec g hsect
          refine ⟨?_, ?_, ?_⟩
          · intro g' hg'
            have hg0 : st.sect = Section.Commands g' := hg'
            rw [hsect] at hg0
            injection hg0 with hgg
            show st.cur_name = some g'
            rw [← hgg]
            exact hcur
          · intro hn0
            have h0 : st.cur_name = none := hn0
            rw [hcur] at h0
            cases h0
          · intro n gl hgl
            have hocc : occs { st with cur_cmds := st.cur_cmds ++ [(c0.withGroup (some g)).name], subcommands := insertAL st.subcommands (c0.withGroup (some g)).name (c0.withGroup (some g)) }
                = st.groups ++ [⟨g, st.cur_cmds ++ [(c0.withGroup (some g)).name]⟩] := by
              show st.groups ++ (match st.cur_name with
                | some gx => [⟨gx, st.cur_cmds ++ [(c0.withGroup (some g)).name]⟩]
                | none => []) = _
              rw [hcur]
            have hoccst : occs st = st.groups ++ [⟨g, st.cur_cmds⟩] := by
              show st.groups ++ (match st.cur_name with
                | some gx => [⟨gx, st.cur_cmds⟩]
                | none => []) = _
              rw [hcur]
            rw [hocc] at hgl
            by_cases heq : n = (c0.withGroup (some g)).name
            · have hinlist : n ∈ st.cur_cmds ++ [(c0.withGroup (some g)).name] := by
                rw [heq]
                exact List.mem_append_right _ (List.mem_singleton_self _)
              have he : groupsFor n (st.groups ++
                  [⟨g, st.cur_cmds ++ [(c0.withGroup (some g)).name]⟩])
                  = groupsFor n st.groups ++
                    [⟨g, st.cur_cmds ++ [(c0.withGroup (some g)).name]⟩] :=
                groupsFor_append_mem n st.groups _ hinlist
              rw [he, List.getLast?_concat] at hgl
              obtain rfl := Option.some.inj hgl
              refine ⟨c0.withGroup (some g), ?_, ?_⟩
              · rw [heq]
                exact lookupAL_insert_self _ _ _
              · simp
            · have hlook : lookupAL (insertAL st.subcommands
                  (c0.withGroup (some g)).name (c0.withGroup (some g))) n
                  = lookupAL st.subcommands n := lookupAL_insert_ne _ _ _ _ heq
              by_cases hmem : n ∈ st.cur_cmds
              · have hmem' : n ∈ st.cur_cmds ++ [(c0.withGroup (some g)).name] :=
                  List.mem_append_left _ hmem
                have he : groupsFor n (st.groups ++
                    [⟨g, st.cur_cmds ++ [(c0.withGroup (some g)).name]⟩])
                    = groupsFor n st.groups ++
                      [⟨g, st.cur_cmds ++ [(c0.withGroup (some g)).name]⟩] :=
                  groupsFor_append_mem n st.groups _ hmem'
                rw [he, List.getLast?_concat] at hgl
                obtain rfl := Option.some.inj hgl
                have e2 : (groupsFor n (occs st)).getLast? = some ⟨g, st.cur_cmds⟩ := by
                  rw [hoccst]
                  have he2 : groupsFor n (st.groups ++ [⟨g, st.cur_cmds⟩])
                      = groupsFor n st.groups ++ [⟨g, st.cur_cmds⟩] :=
                    groupsFor_append_mem n st.groups _ hmem
                  rw [he2, List.getLast?_concat]
                obtain ⟨c'', hco, hgr⟩ := hinv n _ e2
                refine ⟨c'', ?_, hgr⟩
                show lookupAL (insertAL st.subcommands (c0.withGroup (some g)).name
                  (c0.withGroup (some g))) n = some c''
                rw [hlook]
                exact hco
              · have hmem' : ¬ n ∈ st.cur_cmds ++ [(c0.withGroup (some g)).name] := by
                  intro hx
                  rcases List.mem_append.mp hx with hx | hx
                  · exact hmem hx
                  · exact heq (List.mem_singleton.mp hx)
                have he : groupsFor n (st.groups ++
                    [⟨g, st.cur_cmds ++ [(c0.withGroup (some g)).name]⟩])
                    = groupsFor n st.groups :=
                  groupsFor_append_not_mem n st.groups _ hmem'
                have e2 : groupsFor n (occs st) = groupsFor n st.groups := by
                  rw [hoccst]
                  exact groupsFor_append_not_mem n st.groups _ hmem
                rw [he, ← e2] at hgl
                obtain ⟨c'', hco, hgr⟩ := hinv n gl hgl
                refine ⟨c'', ?_, hgr⟩
                show lookupAL (insertAL st.subcommands (c0.withGroup (some g)).name
                  (c0.withGroup (some g))) n = some c''
                rw [hlook]
                exact hco
      | Flags =>
        cases hc : parse_flag_line (trimL l) with
        | none =>
          rw [stepLine_flags_none st l hh ht hsect hc]
          exact h
        | some f =>
          rw [stepLine_flags_some st l f hh ht hsect hc]
          exact good_of_same _ _ h rfl rfl rfl rfl rfl
      | GlobalFlags =>
        cases hc : parse_flag_line (trimL l) with
        | none =>
          rw [stepLine_gflags_none st l hh ht hsect hc]
          exact h
        | some f =>
          rw [stepLine_gflags_some st l f hh ht hsect hc]
          exact good_of_same _ _ h rfl rfl rfl rfl rfl

theorem good_fold (ls : List Str) : GoodState (ls.foldl stepLine initPState) :=
  foldl_inv stepLine GoodState (fun st l hst => good_step st l hst) ls initPState good_init

/-- C2, counterexample: when the same command name is listed under two
different group headers, the parsed subcommand's `group` field is the second
group's name, so for the first group `g` the stored group differs from
`g.name`: the claim's invariant fails. -/
theorem C2_counterexample :
    ((parse_help_output ("GroupA:\n  foo  x\nGroupB:\n  foo  y".toList)).2.2
      = [⟨"GroupA".toList, ["foo".toList]⟩, ⟨"GroupB".toList, ["foo".toList]⟩])
    ∧ (((lookupAL (parse_help_output
          ("GroupA:\n  foo  x\nGroupB:\n  foo  y".toList)).1.subcommands
          ("foo".toList)).map Command.group) = some (some ("GroupB".toList))) := by
  constructor
  · decide
  · decide

/-- C2 (amended): for every parsed group `g` and name `n ∈ g.commands`, `n`
is a key of the parsed subcommand mapping (unconditionally); and provided no
command name is listed under two groups with different names — true of all
well-formed help output, where each subcommand is listed once — the
subcommand stored under `n` has `group = some g.name`.  (The unamended claim
fails when a name reappears under a later, differently-named group header:
the stored `group` is then the last listing's group, see the
counterexample.) -/
theorem C2_theorem (text : Str) (g : CommandGroup)
    (hg : g ∈ (parse_help_output text).2.2) (n : Str) (hn : n ∈ g.commands) :
    (∃ c, lookupAL (parse_help_output text).1.subcommands n = some c) ∧
    ((∀ g1 ∈ (parse_help_output text).2.2, ∀ g2 ∈ (parse_help_output text).2.2,
        ∀ m ∈ g1.commands, m ∈ g2.commands → g1.name = g2.name) →
      ∀ c, lookupAL (parse_help_output text).1.subcommands n = some c →
        c.group = some g.name) := by
  obtain ⟨hsec, hcinv, hinv⟩ := good_fold (linesOf text)
  have hfc := flushGroup_cur_name ((linesOf text).foldl stepLine initPState) hcinv
  have hsubs : (parse_help_output text).1.subcommands
      = (flushGroup ((linesOf text).foldl stepLine initPState)).subcommands := by
    simp [parse_help_output, parseLines]
  have hgroups : (parse_help_output text).2.2
      = (flushGroup ((linesOf text).foldl stepLine initPState)).groups := by
    simp [parse_help_output, parseLines]
  rw [hgroups] at hg
  have hoccsF : occs (flushGroup ((linesOf text).foldl stepLine initPState))
      = (flushGroup ((linesOf text).foldl stepLine initPState)).groups :=
    occs_of_cur_none _ hfc.1
  have hmemfil : g ∈ groupsFor n (occs (flushGroup ((linesOf text).foldl stepLine initPState))) := by
    rw [hoccsF]
    exact List.mem_filter.mpr ⟨hg, by simp [hn]⟩
  obtain ⟨gl, hgl⟩ : ∃ gl, (groupsFor n
      (occs (flushGroup ((linesOf text).foldl stepLine initPState)))).getLast? = some gl := by
    cases hl : groupsFor n (occs (flushGroup ((linesOf text).foldl stepLine initPState))) with
    | nil => rw [hl] at hmemfil; cases hmemfil
    | cons a as => rw [getLast?_cons']; exact ⟨_, rfl⟩
  have hglmem := mem_of_getLast?' hgl
  have hglGroups : gl ∈ (flushGroup ((linesOf text).foldl stepLine initPState)).groups := by
    rw [← hoccsF]
    exact (List.mem_filter.mp hglmem).1
  have hgln : n ∈ gl.commands := by
    have := (List.mem_filter.mp hglmem).2
    simpa using this
  have hgl' : (groupsFor n (occs ((linesOf text).foldl stepLine initPState))).getLast?
      = some gl := by
    rw [← flush_occs ((linesOf text).foldl stepLine initPState) n]
    exact hgl
  obtain ⟨c0, hc0, hgr0⟩ := hinv n gl hgl'
  have hc0' : lookupAL (parse_help_output text).1.subcommands n = some c0 := by
    rw [hsubs, flushGroup_subcommands]
    exact hc0
  refine ⟨⟨c0, hc0'⟩, ?_⟩
  intro hH c hc
  rw [hc0'] at hc
  obtain rfl := Option.some.inj hc
  have hname : gl.name = g.name := by
    refine hH gl ?_ g ?_ n hgln hn
    · rw [hgroups]
      exact hglGroups
    · rw [hgroups]
      exact hg
  rw [hgr0, hname]

/-- C2, witness: `C2_theorem` applied to a help text with two disjoint
groups. -/
theorem C2_witness :
    ((⟨"A".toList, ["x".toList]⟩ : CommandGroup)
      ∈ (parse_help_output ("A:\n x  d\nB:\n y  d".toList)).2.2) ∧
    ("x".toList ∈ (⟨"A".toList, ["x".toList]⟩ : CommandGroup).commands) ∧
    ((∃ c, lookupAL (parse_help_output ("A:\n x  d\nB:\n y  d".toList)).1.subcommands
        ("x".toList) = some c) ∧
     ((∀ g1 ∈ (parse_help_output ("A:\n x  d\nB:\n y  d".toList)).2.2,
         ∀ g2 ∈ (parse_help_output ("A:\n x  d\nB:\n y  d".toList)).2.2,
         ∀ m ∈ g1.commands, m ∈ g2.commands → g1.name = g2.name) →
       ∀ c, lookupAL (parse_help_output ("A:\n x  d\nB:\n y  d".toList)).1.subcommands
           ("x".toList) = some c →
         c.group = some (⟨"A".toList, ["x".toList]⟩ : CommandGroup).name)) :=
  ⟨by decide, by decide, C2_theorem _ _ (by decide) _ (by decide)⟩

/-! ## Claims C3 and C4: the tree assembler -/

theorem build_root_error {ε : Type} (rh : List Str → Except ε Str) (binary : Str) (e : ε)
    (h : rh [binary] = Except.error e) : build_command_tree rh binary = Except.error e := by
  simp only [build_command_tree]
  rw [h]

/-- Unfolding `build_command_tree` when the root invocation succeeds. -/
theorem build_ok_unfold {ε : Type} (rh : List Str → Except ε Str) (binary t : Str)
    (h : rh [binary] = Except.ok t) :
    build_command_tree rh binary = Except.ok
      { root := (keysAL ((parse_help_output t).1.withName binary).subcommands).foldl
          (stepName rh binary) ((parse_help_output t).1.withName binary),
        global_flags := if (parse_help_output t).2.1 = [] then
          ((keysAL ((parse_help_output t).1.withName binary).subcommands).foldl
            (stepName rh binary) ((parse_help_output t).1.withName binary)).flags
          else (parse_help_output t).2.1,
        groups := (parse_help_output t).2.2 } := by
  simp only [build_command_tree]
  rw [h]

theorem stepName_error {ε : Type} (rh : List Str → Except ε Str) (binary : Str)
    (root : Command) (name : Str) (e : ε) (h : rh [binary, name] = Except.error e) :
    stepName rh binary root name = root := by
  simp only [stepName]
  rw [h]

theorem stepName_ok_none {ε : Type} (rh : List Str → Except ε Str) (binary : Str)
    (root : Command) (name : Str) (t : Str) (h : rh [binary, name] = Except.ok t)
    (hl : lookupAL root.subcommands name = none) : stepName rh binary root name = root := by
  simp only [stepName]
  rw [h]
  simp only
  rw [hl]

/-- The enriched depth-1 entry built by `stepName` on a successful
invocation. -/
def enrichedEntry {ε : Type} (rh : List Str → Except ε Str) (binary name : Str) (t : Str)
    (entry : Command) : Command :=
  let parsed := (parse_help_output t).1
  let e1 := ((entry.withFlags parsed.flags).withAliases parsed.aliases).withUsage parsed.usage
  if parsed.subcommands.isEmpty then e1 else enrichDepth2 rh binary name e1 parsed.subcommands

theorem stepName_ok_some {ε : Type} (rh : List Str → Except ε Str) (binary : Str)
    (root : Command) (name : Str) (t : Str) (entry : Command)
    (h : rh [binary, name] = Except.ok t)
    (hl : lookupAL root.subcommands name = some entry) :
    stepName rh binary root name = root.withSubcommands
      (insertAL root.subcommands name (enrichedEntry rh binary name t entry)) := by
  simp only [stepName, enrichedEntry]
  rw [h]
  simp only
  rw [hl]

theorem foldl_stepName_lookup {ε : Type} (rh : List Str → Except ε Str) (binary n : Str)
    (e : ε) (he : rh [binary, n] = Except.error e) :
    ∀ (ns : List Str) (root : Command),
      lookupAL (List.foldl (stepName rh binary) root ns).subcommands n
        = lookupAL root.subcommands n := by
  intro ns
  induction ns with
  | nil => intro root; rfl
  | cons n' ns' ih =>
    intro root
    rw [List.foldl_cons, ih]
    cases hrh : rh [binary, n'] with
    | error e' => rw [stepName_error rh binary root n' e' hrh]
    | ok t =>
      have hne : ¬ n = n' := by
        intro hx
        rw [← hx, he] at hrh
        cases hrh
      cases hl : lookupAL root.subcommands n' with
      | none => rw [stepName_ok_none rh binary root n' t hrh hl]
      | some entry =>
        rw [stepName_ok_some rh binary root n' t entry hrh hl,
          Command.withSubcommands_subcommands]
        exact lookupAL_insert_ne _ _ _ _ hne

theorem enrichDepth2_lookup_other {ε : Type} (rh : List Str → Except ε Str)
    (binary name n2 : Str) :
    ∀ (ps : List (Str × Command)) (entry : Command), (∀ q ∈ ps, ¬ q.1 = n2) →
      lookupAL (enrichDepth2 rh binary name entry ps).subcommands n2
        = lookupAL entry.subcommands n2 := by
  intro ps
  induction ps with
  | nil => intro entry _; rfl
  | cons p ps' ih =>
    intro entry hq
    simp only [enrichDepth2, List.foldl_cons] at *
    rw [ih _ (fun q hq' => hq q (List.mem_cons_of_mem _ hq'))]
    rw [Command.withSubcommands_subcommands]
    exact lookupAL_insert_ne _ _ _ _
      (fun hx => hq p (List.mem_cons_self _ _) hx.symm)

theorem enrichDepth2_cons {ε : Type} (rh : List Str → Except ε Str) (binary name : Str)
    (entry : Command) (p : Str × Command) (ps : List (Str × Command)) :
    enrichDepth2 rh binary name entry (p :: ps)
      = enrichDepth2 rh binary name (entry.withSubcommands (insertAL entry.subcommands p.1
          (match rh [binary, name, p.1] with
           | Except.error _ => p.2
           | Except.ok sub_sub_help =>
             (((p.2.withFlags (parse_help_output sub_sub_help).1.flags).withAliases
               (parse_help_output sub_sub_help).1.aliases).withUsage
               (parse_help_output sub_sub_help).1.usage).withSubcommands
               (parse_help_output sub_sub_help).1.subcommands))) ps := by
  simp only [enrichDepth2, List.foldl_cons]

/-- A depth-2 entry whose own invocation fails is inserted unchanged by the
depth-2 loop. -/
theorem enrichDepth2_keeps_stub {ε : Type} (rh : List Str → Except ε Str)
    (binary name n2 : Str) (c : Command) (e2 : ε)
    (he : rh [binary, name, n2] = Except.error e2) :
    ∀ (ps : List (Str × Command)) (entry : Command),
      List.Pairwise (fun p q => ¬ p.1 = q.1) ps → (n2, c) ∈ ps →
      lookupAL (enrichDepth2 rh binary name entry ps).subcommands n2 = some c := by
  intro ps
  induction ps with
  | nil => intro entry _ hmem; cases hmem
  | cons p ps' ih =>
    intro entry hpw hmem
    have hpw' := (List.pairwise_cons.mp hpw).2
    have hph := (List.pairwise_cons.mp hpw).1
    rw [enrichDepth2_cons]
    rcases List.mem_cons.mp hmem with hmem | hmem
    · obtain rfl : p = (n2, c) := hmem.symm
      have hother : ∀ q ∈ ps', ¬ q.1 = n2 := by
        intro q hq hx
        exact hph q hq (hx.symm)
      rw [enrichDepth2_lookup_other rh binary name n2 ps' _ hother,
        Command.withSubcommands_subcommands]
      have hsub : (match rh [binary, name, (n2, c).1] with
          | Except.error _ => (n2, c).2
          | Except.ok sub_sub_help =>
            ((((n2, c).2.withFlags (parse_help_output sub_sub_help).1.flags).withAliases
              (parse_help_output sub_sub_help).1.aliases).withUsage
              (parse_help_output sub_sub_help).1.usage).withSubcommands
              (parse_help_output sub_sub_help).1.subcommands) = c := by
        rw [he]
      rw [hsub]
      exact lookupAL_insert_self _ _ _
    · exact ih _ hpw' hmem

/-- C3: failure of the root `runHelp` invocation fails the whole build with
the same I/O error.  When the root invocation succeeds the build always
succeeds; every depth-1 name whose own invocation fails keeps exactly the
stub from the root listing — which has no flags, no aliases and no usage —
and every depth-2 entry whose invocation fails is inserted by the depth-2
loop exactly as the stub parsed from its parent's listing, while assembly
continues with the remaining siblings. -/
theorem C3_theorem {ε : Type} (rh : List Str → Except ε Str) (binary : Str) :
    (∀ e, rh [binary] = Except.error e → build_command_tree rh binary = Except.error e)
    ∧ (∀ t, rh [binary] = Except.ok t →
        ∃ tree, build_command_tree rh binary = Except.ok tree
          ∧ ∀ n e, rh [binary, n] = Except.error e →
              lookupAL tree.root.subcommands n
                = lookupAL (parse_help_output t).1.subcommands n
              ∧ (∀ c, lookupAL (parse_help_output t).1.subcommands n = some c →
                  c.flags = [] ∧ c.aliases = [] ∧ c.usage = none))
    ∧ (∀ (name n2 : Str) (c : Command) (e2 : ε) (ps : List (Str × Command))
        (entry : Command),
        rh [binary, name, n2] = Except.error e2 →
        List.Pairwise (fun p q => ¬ p.1 = q.1) ps → (n2, c) ∈ ps →
        lookupAL (enrichDepth2 rh binary name entry ps).subcommands n2 = some c) := by
  refine ⟨?_, ?_, ?_⟩
  · intro e h
    exact build_root_error rh binary e h
  · intro t h
    refine ⟨_, build_ok_unfold rh binary t h, ?_⟩
    intro n e he
    constructor
    · show lookupAL ((keysAL ((parse_help_output t).1.withName binary).subcommands).foldl
        (stepName rh binary) ((parse_help_output t).1.withName binary)).subcommands n = _
      rw [foldl_stepName_lookup rh binary n e he, Command.withName_subcommands]
    · intro c hc
      have hstub := parse_help_output_lookup_stub t n c hc
      exact ⟨hstub.1, hstub.2.1, hstub.2.2.1⟩
  · intro name n2 c e2 ps entry he hpw hmem
    exact enrichDepth2_keeps_stub rh binary name n2 c e2 he ps entry hpw hmem

def rhE : List Str → Except Str Str := fun _ => Except.error ("io".toList)

def rootHelpC3 : Str := "X:\n a  da\n b  db".toList

def rhC3 : List Str → Except Str Str := fun path =>
  if path = ["bd".toList] then Except.ok rootHelpC3
  else if path = ["bd".toList, "b".toList] then
    Except.ok ("Flags:\n  -v, --verbose  vv".toList)
  else Except.error ("io".toList)

def dummyCommand : Command := Command.new [] []

/-- C3, witness: `C3_theorem` applied to a failing root oracle, to an oracle
whose depth-1 invocation for `a` fails, and to a failing depth-2 entry. -/
theorem C3_witness :
    (build_command_tree rhE ("bd".toList) = Except.error ("io".toList)) ∧
    (∃ tree, build_command_tree rhC3 ("bd".toList) = Except.ok tree
      ∧ lookupAL tree.root.subcommands ("a".toList)
          = lookupAL (parse_help_output rootHelpC3).1.subcommands ("a".toList)) ∧
    lookupAL (enrichDepth2 rhC3 ("bd".toList) ("b".toList) dummyCommand
      [("x".toList, dummyCommand)]).subcommands ("x".toList) = some dummyCommand := by
  refine ⟨(C3_theorem rhE ("bd".toList)).1 ("io".toList) rfl, ?_, ?_⟩
  · obtain ⟨tree, h1, h2⟩ := (C3_theorem rhC3 ("bd".toList)).2.1 rootHelpC3 rfl
    exact ⟨tree, h1, (h2 ("a".toList) ("io".toList) rfl).1⟩
  · exact (C3_theorem rhC3 ("bd".toList)).2.2 ("b".toList) ("x".toList) dummyCommand
      ("io".toList) [("x".toList, dummyCommand)] dummyCommand rfl (by simp)
      (List.mem_singleton_self _)

/-! ### C4: the depth cap -/

/-- No child of `c` has any subcommands. -/
def NoDeepSubs (c : Command) : Prop :=
  ∀ n c', lookupAL c.subcommands n = some c' → c'.subcommands = []

/-- No grandchild of `c` has any subcommands. -/
def Depth2OK (c : Command) : Prop :=
  ∀ n c', lookupAL c.subcommands n = some c' → NoDeepSubs c'

theorem enrichDepth2_depth2ok {ε : Type} (rh : List Str → Except ε Str) (binary name : Str) :
    ∀ (parsedSubs : List (Str × Command)) (entry : Command),
      (∀ p ∈ parsedSubs, p.2.subcommands = []) → Depth2OK entry →
      Depth2OK (enrichDepth2 rh binary name entry parsedSubs) := by
  intro ps
  induction ps with
  | nil => intro entry _ he; exact he
  | cons p ps' ih =>
    intro entry hps he
    simp only [enrichDepth2, List.foldl_cons] at *
    apply ih
    · intro q hq
      exact hps q (List.mem_cons_of_mem _ hq)
    · -- the one-step update keeps the invariant
      intro n' c' hc'
      rw [Command.withSubcommands_subcommands] at hc'
      rcases lookupAL_insert_or _ _ _ _ _ hc' with hcv | hcold
      · subst hcv
        cases hrh : rh [binary, name, p.1] with
        | error e =>
          intro n'' c'' hc''
          have hc2 : lookupAL p.2.subcommands n'' = some c'' := hc''
          rw [hps p (List.mem_cons_self _ _)] at hc2
          simp [lookupAL] at hc2
        | ok sub_sub_help =>
          intro n'' c'' hc''
          have hc2 : lookupAL ((((p.2.withFlags
              (parse_help_output sub_sub_help).1.flags).withAliases
              (parse_help_output sub_sub_help).1.aliases).withUsage
              (parse_help_output sub_sub_help).1.usage).withSubcommands
              (parse_help_output sub_sub_help).1.subcommands).subcommands n''
              = some c'' := hc''
          rw [Command.withSubcommands_subcommands] at hc2
          exact (parse_help_output_lookup_stub sub_sub_help n'' c'' hc2).2.2.2
      · exact he n' c' hcold

theorem foldl_stepName_depth2 {ε : Type} (rh : List Str → Except ε Str) (binary : Str) :
    ∀ (ns : List Str) (root : Command),
      (∀ n c, lookupAL root.subcommands n = some c → Depth2OK c) →
      ∀ n c, lookupAL (List.foldl (stepName rh binary) root ns).subcommands n = some c →
        Depth2OK c := by
  intro ns
  induction ns with
  | nil => exact fun root h => h
  | cons n' ns' ih =>
    intro root h
    rw [List.foldl_cons]
    apply ih
    intro n c hc
    cases hrh : rh [binary, n'] with
    | error e =>
      rw [stepName_error rh binary root n' e hrh] at hc
      exact h n c hc
    | ok t =>
      cases hl : lookupAL root.subcommands n' with
      | none =>
        rw [stepName_ok_none rh binary root n' t hrh hl] at hc
        exact h n c hc
      | some entry =>
        rw [stepName_ok_some rh binary root n' t entry hrh hl,
          Command.withSubcommands_subcommands] at hc
        rcases lookupAL_insert_or _ _ _ _ _ hc with hcv | hcold
        · subst hcv
          have hentry : Depth2OK entry := h n' entry hl
          have he1 : Depth2OK (((entry.withFlags (parse_help_output t).1.flags).withAliases
              (parse_help_output t).1.aliases).withUsage (parse_help_output t).1.usage) := by
            intro n'' c'' hc''
            rw [Command.withUsage_subcommands, Command.withAliases_subcommands,
              Command.withFlags_subcommands] at hc''
            exact hentry n'' c'' hc''
          simp only [enrichedEntry]
          split
          · exact he1
          · apply enrichDepth2_depth2ok
            · intro p hp
              exact (parse_help_output_stub t p hp).2.2.2
            · exact he1
        · exact h n c hcold

/-- C4: for every `runHelp` oracle and entry point, a successfully built
tree never has populated `subcommands` below depth 2: any node reached by
three successive subcommand lookups from the root (a depth-3 node) has an
empty subcommand map, however deep the underlying program's hierarchy is. -/
theorem C4_theorem {ε : Type} (rh : List Str → Except ε Str) (binary : Str)
    (tree : CommandTree) (h : build_command_tree rh binary = Except.ok tree)
    (n1 n2 n3 : Str) (c1 c2 c3 : Command)
    (h1 : lookupAL tree.root.subcommands n1 = some c1)
    (h2 : lookupAL c1.subcommands n2 = some c2)
    (h3 : lookupAL c2.subcommands n3 = some c3) :
    c3.subcommands = [] := by
  cases hrh : rh [binary] with
  | error e =>
    rw [build_root_error rh binary e hrh] at h
    cases h
  | ok t =>
    have hb := build_ok_unfold rh binary t hrh
    rw [h] at hb
    obtain rfl := (Except.ok.inj hb)
    have hroot : ∀ n c, lookupAL (((keysAL ((parse_help_output t).1.withName
        binary).subcommands).foldl (stepName rh binary)
        ((parse_help_output t).1.withName binary)).subcommands) n = some c → Depth2OK c := by
      apply foldl_stepName_depth2
      intro n c hc
      rw [Command.withName_subcommands] at hc
      have hstub := parse_help_output_lookup_stub t n c hc
      intro n' c' hc'
      rw [hstub.2.2.2] at hc'
      simp [lookupAL] at hc'
    exact hroot n1 c1 h1 n2 c2 h2 n3 c3 h3

def rhC4 : List Str → Except Str Str := fun path =>
  if path = ["bd".toList] then Except.ok ("X:\n a  d".toList)
  else if path = ["bd".toList, "a".toList] then Except.ok ("X:\n b  d".toList)
  else if path = ["bd".toList, "a".toList, "b".toList] then Except.ok ("X:\n c  d".toList)
  else Except.error ("io".toList)

def treeC4 : CommandTree :=
  match build_command_tree rhC4 ("bd".toList) with
  | .ok t => t
  | .error _ => ⟨dummyCommand, [], []⟩

def c1C4 : Command := (lookupAL treeC4.root.subcommands ("a".toList)).getD dummyCommand

def c2C4 : Command := (lookupAL c1C4.subcommands ("b".toList)).getD dummyCommand

def c3C4 : Command := (lookupAL c2C4.subcommands ("c".toList)).getD dummyCommand

/-- C4, witness: `C4_theorem` applied to an oracle producing a three-level
hierarchy (`bd` → `a` → `b` → stub `c`). -/
theorem C4_witness :
    build_command_tree rhC4 ("bd".toList) = Except.ok treeC4 ∧
    lookupAL treeC4.root.subcommands ("a".toList) = some c1C4 ∧
    lookupAL c1C4.subcommands ("b".toList) = some c2C4 ∧
    lookupAL c2C4.subcommands ("c".toList) = some c3C4 ∧
    c3C4.subcommands = [] :=
  ⟨rfl, rfl, rfl, rfl,
   C4_theorem rhC4 ("bd".toList) treeC4 rfl ("a".toList) ("b".toList) ("c".toList)
     c1C4 c2C4 c3C4 rfl rfl rfl⟩

/-! ## Claim C6: global-flags resolution -/

theorem foldl_stepName_flags {ε : Type} (rh : List Str → Except ε Str) (binary : Str) :
    ∀ (ns : List Str) (root : Command),
      (List.foldl (stepName rh binary) root ns).flags = root.flags := by
  intro ns
  induction ns with
  | nil => intro root; rfl
  | cons n' ns' ih =>
    intro root
    rw [List.foldl_cons, ih]
    cases hrh : rh [binary, n'] with
    | error e => rw [stepName_error rh binary root n' e hrh]
    | ok t =>
      cases hl : lookupAL root.subcommands n' with
      | none => rw [stepName_ok_none rh binary root n' t hrh hl]
      | some entry =>
        rw [stepName_ok_some rh binary root n' t entry hrh hl,
          Command.withSubcommands_flags]

/-- C6: when the root help text yields a non-empty `Global Flags` section
the tree's `global_flags` is that section verbatim, otherwise it is the
root's own parsed `Flags` section; the tree root's flags are exactly the
parsed root flags, so with no `Global Flags` section
`tree.global_flags = tree.root.flags`. -/
theorem C6_theorem {ε : Type} (rh : List Str → Except ε Str) (binary t : Str)
    (tree : CommandTree) (hroot : rh [binary] = Except.ok t)
    (h : build_command_tree rh binary = Except.ok tree) :
    tree.global_flags = (if (parse_help_output t).2.1 = [] then tree.root.flags
      else (parse_help_output t).2.1)
    ∧ tree.root.flags = (parse_help_output t).1.flags := by
  have hb := build_ok_unfold rh binary t hroot
  rw [h] at hb
  obtain rfl := Except.ok.inj hb
  refine ⟨rfl, ?_⟩
  show (List.foldl (stepName rh binary) ((parse_help_output t).1.withName binary)
    (keysAL ((parse_help_output t).1.withName binary).subcommands)).flags = _
  rw [foldl_stepName_flags, Command.withName_flags]

def rhC6 : List Str → Except Str Str := fun path =>
  if path = ["bd".toList] then Except.ok ("Flags:\n  -v, --verbose  vdesc".toList)
  else Except.error ("io".toList)

def treeC6 : CommandTree :=
  match build_command_tree rhC6 ("bd".toList) with
  | .ok t => t
  | .error _ => ⟨dummyCommand, [], []⟩

/-- C6, witness: `C6_theorem` applied to a root help text with a `Flags:`
section and no `Global Flags:` section; the tree's global flags equal the
root's flags. -/
theorem C6_witness :
    build_command_tree rhC6 ("bd".toList) = Except.ok treeC6 ∧
    (treeC6.global_flags
        = (if (parse_help_output ("Flags:\n  -v, --verbose  vdesc".toList)).2.1 = []
           then treeC6.root.flags
           else (parse_help_output ("Flags:\n  -v, --verbose  vdesc".toList)).2.1)
      ∧ treeC6.root.flags
        = (parse_help_output ("Flags:\n  -v, --verbose  vdesc".toList)).1.flags) ∧
    treeC6.global_flags = treeC6.root.flags ∧ ¬ treeC6.root.flags = [] :=
  ⟨rfl, C6_theorem rhC6 ("bd".toList) _ treeC6 rfl rfl, by decide, by decide⟩

/-! ## Claim C5: total, lossy-safe classification -/

/-- A line that is silently skipped by `stepLine`: not a section header, and
either blank or not matching the current section's line pattern. -/
def skipsLine (st : PState) (l : Str) : Bool :=
  !isHeaderLine l &&
    (decide (trimL l = []) ||
     (match st.sect with
      | .Preamble => ("Use \"".toList).isPrefixOf (trimL l)
      | .Usage => !decide (st.usage = none)
      | .Aliases => decide (commaTokens (trimL l) = [])
      | .Commands _ => (parse_command_line (trimL l)).isNone
      | .Flags => (parse_flag_line (trimL l)).isNone
      | .GlobalFlags => (parse_flag_line (trimL l)).isNone))

theorem stepLine_skip (st : PState) (l : Str) (h : skipsLine st l = true) :
    stepLine st l = st := by
  simp only [skipsLine, Bool.and_eq_true, Bool.or_eq_true] at h
  obtain ⟨hh0, hrest⟩ := h
  have hh : isHeaderLine l = false := by simpa using hh0
  rcases hrest with ht | hsec
  · exact stepLine_skip_blank st l hh (of_decide_eq_true ht)
  · by_cases ht : trimL l = []
    · exact stepLine_skip_blank st l hh ht
    · cases hs : st.sect with
      | Preamble =>
        rw [hs] at hsec
        exact stepLine_preamble_use st l hh ht hs hsec
      | Usage =>
        rw [hs] at hsec
        have hu : ¬ st.usage = none := by
          intro h0
          rw [h0] at hsec
          simp at hsec
        exact stepLine_usage_keep st l hh ht hs hu
      | Aliases =>
        rw [hs] at hsec
        have hct : commaTokens (trimL l) = [] := of_decide_eq_true hsec
        rw [stepLine_aliases st l hh ht hs, hct, List.append_nil]
      | Commands g =>
        rw [hs] at hsec
        exact stepLine_commands_none st l g hh ht hs (Option.isNone_iff_eq_none.mp hsec)
      | Flags =>
        rw [hs] at hsec
        exact stepLine_flags_none st l hh ht hs (Option.isNone_iff_eq_none.mp hsec)
      | GlobalFlags =>
        rw [hs] at hsec
        exact stepLine_gflags_none st l hh ht hs (Option.isNone_iff_eq_none.mp hsec)

/-- C5: `parse_help_output` is a total function of its input (every function
in this embedding is total, mirroring the absence of any failure path in the
Rust classifier: no `Result`, no `panic`, all indexing guarded), and a
skipped line contributes nothing: inserting any non-header line that is
blank or fails its section's line parser anywhere in the input leaves the
entire parse result unchanged. -/
theorem C5_theorem (pre post : List Str) (l : Str)
    (h : skipsLine (List.foldl stepLine initPState pre) l = true) :
    parseLines (pre ++ l :: post) = parseLines (pre ++ post) := by
  have hfold : List.foldl stepLine initPState (pre ++ l :: post)
      = List.foldl stepLine initPState (pre ++ post) := by
    rw [List.foldl_append, List.foldl_append, List.foldl_cons, stepLine_skip _ _ h]
  simp only [parseLines, hfold]

/-- C5, witness: `C5_theorem` applied to a nonsense line inside a `Flags:`
section. -/
theorem C5_witness :
    skipsLine (List.foldl stepLine initPState ["Flags:".toList]) ("nonsense".toList) = true ∧
    parseLines (["Flags:".toList] ++ "nonsense".toList :: ["  -v, --verbose  vd".toList])
      = parseLines (["Flags:".toList] ++ ["  -v, --verbose  vd".toList]) :=
  ⟨by decide, C5_theorem _ _ _ (by decide)⟩

/-! ## Claim C7: alias collection and de-duplication -/

theorem stepLine_header_aliases (st : PState) :
    stepLine st ("Aliases:".toList) = { flushGroup st with sect := Section.Aliases } := by
  simp only [stepLine]
  rw [if_pos (by decide)]
  rw [if_neg (by decide), if_pos (by decide)]

/-- C7: when the text consists of a prefix contributing no alias tokens, an
`Aliases:` header, and one alias line, the parsed `aliases` are the tokens of
that line minus the first one (the command's own context name): tokens
`[n, a1, a2, ...]` parse to `[a1, a2, ...]`, and one or zero tokens parse to
`[]`. -/
theorem C7_theorem (pre : List Str) (l : Str)
    (hpre : (List.foldl stepLine initPState pre).aliases = [])
    (hl : isHeaderLine l = false) :
    (parseLines (pre ++ ["Aliases:".toList, l])).1.aliases
      = (match commaTokens (trimL l) with
         | [] => []
         | [_] => []
         | _ :: rest => rest) := by
  have hsteps : List.foldl stepLine initPState (pre ++ ["Aliases:".toList, l])
      = stepLine (stepLine (List.foldl stepLine initPState pre) ("Aliases:".toList)) l := by
    rw [List.foldl_append]
    rfl
  have h1 := stepLine_header_aliases (List.foldl stepLine initPState pre)
  have haliases1 : (stepLine (List.foldl stepLine initPState pre)
      ("Aliases:".toList)).aliases = [] := by
    rw [h1]
    show (flushGroup (List.foldl stepLine initPState pre)).aliases = []
    rw [flushGroup_aliases]
    exact hpre
  have hsect1 : (stepLine (List.foldl stepLine initPState pre)
      ("Aliases:".toList)).sect = Section.Aliases := by
    rw [h1]
  have hout : (parseLines (pre ++ ["Aliases:".toList, l])).1.aliases
      = (if 1 < (flushGroup (List.foldl stepLine initPState
            (pre ++ ["Aliases:".toList, l]))).aliases.length
         then (flushGroup (List.foldl stepLine initPState
            (pre ++ ["Aliases:".toList, l]))).aliases.drop 1
         else []) := by
    simp [parseLines]
  rw [hout, flushGroup_aliases, hsteps]
  by_cases ht : trimL l = []
  · rw [stepLine_skip_blank _ l hl ht, haliases1, ht]
    rfl
  · rw [stepLine_aliases _ l hl ht hsect1]
    show (if 1 < ((stepLine (List.foldl stepLine initPState pre) ("Aliases:".toList)).aliases
        ++ commaTokens (trimL l)).length then _ else _) = _
    rw [haliases1, List.nil_append]
    cases hct : commaTokens (trimL l) with
    | nil => rfl
    | cons a as =>
      cases as with
      | nil => rfl
      | cons b bs =>
        rw [if_pos (by simp)]
        rfl

/-- C7, witness: `C7_theorem` applied to the alias line `create, new` with an
empty prefix. -/
theorem C7_witness :
    (List.foldl stepLine initPState []).aliases = [] ∧
    isHeaderLine ("  create, new".toList) = false ∧
    (parseLines ([] ++ ["Aliases:".toList, "  create, new".toList])).1.aliases
      = (match commaTokens (trimL ("  create, new".toList)) with
         | [] => []
         | [_] => []
         | _ :: rest => rest) :=
  ⟨rfl, by decide, C7_theorem [] _ rfl (by decide)⟩

/-! ## Claim C8: aliases and the command's own name -/

def rhC8 : List Str → Except Str Str := fun path =>
  if path = ["bd".toList] then Except.ok ("X:\n a  d".toList)
  else if path = ["bd".toList, "a".toList] then Except.ok ("Aliases:\n  x, a".toList)
  else Except.error ("io".toList)

def treeC8 : CommandTree :=
  match build_command_tree rhC8 ("bd".toList) with
  | .ok t => t
  | .error _ => ⟨dummyCommand, [], []⟩

def cC8 : Command := (lookupAL treeC8.root.subcommands ("a".toList)).getD dummyCommand

/-- C8, counterexample: an assembler-produced tree whose node `a` has alias
list `["a"]`, containing its own name — the alias de-duplication only drops
the FIRST collected token, so a help text listing the own name in a later
position defeats the claimed invariant. -/
theorem C8_counterexample :
    build_command_tree rhC8 ("bd".toList) = Except.ok treeC8 ∧
    lookupAL treeC8.root.subcommands ("a".toList) = some cC8 ∧
    cC8.name = "a".toList ∧ "a".toList ∈ cC8.aliases := by
  refine ⟨rfl, rfl, rfl, ?_⟩
  decide

/-- C8 (amended): every parsed alias list is contained in the tail of the
comma tokens collected from the `Aliases` sections of the node's own help
text; hence a node's own name appears among its aliases only when that help
text lists the name again after the first token.  For help texts following
the cobra convention — the own name appears only as the first token — the
aliases never contain the node's own name. -/
theorem C8_theorem (text : Str) (n : Str)
    (h : ¬ n ∈ ((List.foldl stepLine initPState (linesOf text)).aliases).drop 1) :
    ¬ n ∈ (parse_help_output text).1.aliases := by
  intro hmem
  have haliases : (parse_help_output text).1.aliases
      = (if 1 < (flushGroup (List.foldl stepLine initPState (linesOf text))).aliases.length
         then (flushGroup (List.foldl stepLine initPState (linesOf text))).aliases.drop 1
         else []) := by
    simp [parse_help_output, parseLines]
  rw [haliases, flushGroup_aliases] at hmem
  by_cases hlen : 1 < (List.foldl stepLine initPState (linesOf text)).aliases.length
  · rw [if_pos hlen] at hmem
    exact h hmem
  · rw [if_neg hlen] at hmem
    cases hmem

/-- C8, witness: `C8_theorem` applied to the conventional alias line
`create, new` and the command name `create`. -/
theorem C8_witness :
    (¬ "create".toList ∈ ((List.foldl stepLine initPState
        (linesOf ("Aliases:\n  create, new".toList))).aliases).drop 1) ∧
    ¬ "create".toList ∈ (parse_help_output ("Aliases:\n  create, new".toList)).1.aliases :=
  ⟨by decide, C8_theorem _ _ (by decide)⟩

/-! ## Claim C9: the default value is a substring of the description -/

theorem dropWhile_suffix' {α : Type} (p : α → Bool) (l : List α) :
    List.IsSuffix (l.dropWhile p) l := by
  induction l with
  | nil => exact List.suffix_refl _
  | cons a as ih =>
    simp only [List.dropWhile]
    split
    · exact ih.trans (List.suffix_cons a as)
    · exact List.suffix_refl _

theorem dropTrailing_prefixOf (c : Char) (s : Str) : List.IsPrefix (dropTrailing c s) s := by
  have h := List.reverse_prefix.mpr (dropWhile_suffix' (· == c) s.reverse)
  rwa [List.reverse_reverse] at h

theorem trimL_infixOf (s : Str) : List.IsInfix (trimL s) s := by
  have h2 := List.reverse_prefix.mpr (dropWhile_suffix' isWhite (s.dropWhile isWhite).reverse)
  rw [List.reverse_reverse] at h2
  exact h2.isInfix.trans (dropWhile_suffix' _ _).isInfix

theorem trimStartMatchesStr_suffix :
    ∀ (fuel : Nat) (pat s : Str), List.IsSuffix (trimStartMatchesStr fuel pat s) s := by
  intro fuel
  induction fuel with
  | zero => intro pat s; exact List.suffix_refl _
  | succ f ih =>
    intro pat s
    simp only [trimStartMatchesStr]
    split
    · exact (ih pat _).trans (List.drop_suffix _ _)
    · exact List.suffix_refl _

theorem stripDefaultVal_infixOf (ds : Str) : List.IsInfix (stripDefaultVal ds) ds := by
  show List.IsInfix (dropTrailing '"'
    ((trimL (dropTrailing ')' (trimL ((trimStartMatchesStr (ds.length + 1) defaultPat
      ds).dropWhile (· == ':'))))).dropWhile (· == '"'))) ds
  exact (dropTrailing_prefixOf '"' _).isInfix.trans
    ((dropWhile_suffix' (· == '"') _).isInfix.trans
      ((trimL_infixOf _).trans
        ((dropTrailing_prefixOf ')' _).isInfix.trans
          ((trimL_infixOf _).trans
            ((dropWhile_suffix' (· == ':') _).isInfix.trans
              (trimStartMatchesStr_suffix _ _ _).isInfix)))))

theorem extractDefault_infix (description d : Str) (h : extractDefault description = some d) :
    List.IsInfix d description ∧ (findSub defaultPat description).isSome := by
  have h' : (match findSub defaultPat description with
      | none => (none : Option Str)
      | some s =>
        match findChar ')' (description.drop s) with
        | none => none
        | some e =>
          if stripDefaultVal ((description.drop s).take (e + 1)) = [] then none
          else some (stripDefaultVal ((description.drop s).take (e + 1)))) = some d := h
  obtain ⟨o, ho⟩ : ∃ o, findSub defaultPat description = o := ⟨_, rfl⟩
  rw [ho] at h'
  cases o with
  | none => exact Option.noConfusion h'
  | some s =>
    have h2 : (match findChar ')' (description.drop s) with
        | none => (none : Option Str)
        | some e =>
          if stripDefaultVal ((description.drop s).take (e + 1)) = [] then none
          else some (stripDefaultVal ((description.drop s).take (e + 1)))) = some d := h'
    obtain ⟨o2, he⟩ : ∃ o2, findChar ')' (description.drop s) = o2 := ⟨_, rfl⟩
    rw [he] at h2
    cases o2 with
    | none => exact Option.noConfusion h2
    | some e =>
      have h3 : (if stripDefaultVal ((description.drop s).take (e + 1)) = []
          then (none : Option Str)
          else some (stripDefaultVal ((description.drop s).take (e + 1)))) = some d := h2
      split at h3
      · exact Option.noConfusion h3
      · obtain rfl := Option.some.inj h3
        constructor
        · have i0 : List.IsInfix ((description.drop s).take (e + 1)) description :=
            (List.take_prefix _ _).isInfix.trans (List.drop_suffix _ _).isInfix
          exact (stripDefaultVal_infixOf _).trans i0
        · rw [ho]
          rfl

/-- C9: whenever a parsed flag has `default = some d`, `d` is a contiguous
substring (infix) of that flag's description, and the description still
contains the original `(default ...)` annotation: the extraction populates a
separate field and never edits the description. -/
theorem C9_theorem (l : Str) (f : Flag) (d : Str) (h : parse_flag_line l = some f)
    (hd : f.default = some d) :
    List.IsInfix d f.description ∧ (findSub defaultPat f.description).isSome := by
  simp only [parse_flag_line] at h
  split at h
  · exact absurd h (by simp)
  · split at h
    · exact absurd h (by simp)
    · obtain rfl := Option.some.inj h
      exact extractDefault_infix _ d hd

def flagC9 : Flag :=
  ⟨"type".toList, some 't', "Issue type (default \"task\")".toList,
   some ("string".toList), some ("task".toList)⟩

/-- C9, witness: `C9_theorem` applied to the `--type` flag line with a quoted
default. -/
theorem C9_witness :
    parse_flag_line ("  -t, --type string   Issue type (default \"task\")".toList)
      = some flagC9 ∧
    flagC9.default = some ("task".toList) ∧
    (List.IsInfix ("task".toList) flagC9.description
      ∧ (findSub defaultPat flagC9.description).isSome) :=
  ⟨by decide, by decide,
   C9_theorem ("  -t, --type string   Issue type (default \"task\")".toList) flagC9
     ("task".toList) (by decide) (by decide)⟩

/-! ## Claim C10: the no-boundary fallback of `split_flag_description` -/

/-- Scans a line for a run of two-or-more spaces occurring after a
dash-containing token with `seen` tracking whether a dash has been passed:
the situation in which the boundary search of `split_flag_description` can
fire on a trimmed line. -/
def hasGapAfterDash : Bool → Str → Bool
  | seen, c1 :: c2 :: rest =>
    if c1 == ' ' && c2 == ' ' && seen then true
    else hasGapAfterDash (seen || c1 == '-') (c2 :: rest)
  | _, _ => false

theorem hgad_token : ∀ (t : Str), (∀ c ∈ t, (c == ' ') = false) → ∀ (b : Bool) (r : Str),
    hasGapAfterDash b (t ++ r) = hasGapAfterDash (b || containsChar '-' t) r := by
  intro t
  induction t with
  | nil =>
    intro _ b r
    simp [containsChar]
  | cons c t' ih =>
    intro hns b r
    have hc : (c == ' ') = false := hns c (List.mem_cons_self _ _)
    have hns' : ∀ x ∈ t', (x == ' ') = false := fun x hx => hns x (List.mem_cons_of_mem _ hx)
    cases htr : t' ++ r with
    | nil =>
      obtain ⟨h1, h2⟩ := List.append_eq_nil.mp htr
      subst h1
      subst h2
      simp [hasGapAfterDash, containsChar]
    | cons d rest' =>
      rw [List.cons_append, htr, hasGapAfterDash, if_neg (by simp [hc])]
      rw [← htr]
      rw [ih hns' (b || c == '-') r]
      simp [containsChar, List.any_cons, Bool.or_assoc]

theorem hgad_two_spaces (rest : Str) : hasGapAfterDash true (' ' :: ' ' :: rest) = true := by
  simp [hasGapAfterDash]

theorem hgad_spaces_false : ∀ (sp : Str), (∀ c ∈ sp, (c == ' ') = true) → ∀ (r : Str),
    hasGapAfterDash false (sp ++ r) = hasGapAfterDash false r := by
  intro sp
  induction sp with
  | nil => intro _ r; rfl
  | cons c sp' ih =>
    intro hsp r
    have hc : c = ' ' := by simpa using hsp c (List.mem_cons_self _ _)
    subst hc
    have hsp' : ∀ x ∈ sp', (x == ' ') = true := fun x hx => hsp x (List.mem_cons_of_mem _ hx)
    cases htr : sp' ++ r with
    | nil =>
      obtain ⟨h1, h2⟩ := List.append_eq_nil.mp htr
      subst h1
      subst h2
      simp [hasGapAfterDash]
    | cons d rest' =>
      rw [List.cons_append, htr, hasGapAfterDash, if_neg (by simp)]
      have hg : hasGapAfterDash false (sp' ++ r) = hasGapAfterDash false r := ih hsp' r
      rw [htr] at hg
      exact hg


theorem hgad_single_space (b : Bool) (r : Str)
    (hr : ∀ d rest', r = d :: rest' → (d == ' ') = false) :
    hasGapAfterDash b (' ' :: r) = hasGapAfterDash b r := by
  cases r with
  | nil => simp [hasGapAfterDash]
  | cons d rest' =>
    have hd := hr d rest' rfl
    rw [hasGapAfterDash, if_neg (by simp [hd])]
    have hb : (b || (' ' == '-')) = b := by
      cases b <;> decide
    rw [hb]

theorem dropWhile_head_false {α : Type} (p : α → Bool) :
    ∀ (l : List α) (a : α) (as : List α), l.dropWhile p = a :: as → p a = false := by
  intro l
  induction l with
  | nil => intro a as h; cases h
  | cons x xs ih =>
    intro a as h
    simp only [List.dropWhile] at h
    cases hp : p x with
    | true =>
      have h2 : xs.dropWhile p = a :: as := by
        rw [hp] at h
        exact h
      exact ih a as h2
    | false =>
      have h2 : x :: xs = a :: as := by
        rw [hp] at h
        exact h
      injection h2 with h3 _
      rw [← h3]
      exact hp

theorem sfdLoop_fallback : ∀ (fuel : Nat) (done rest : Str) (found : Bool),
    hasGapAfterDash found rest = false →
    sfdLoop fuel done rest found = (done ++ rest, []) := by
  intro fuel
  induction fuel with
  | zero =>
    intro done rest found _
    rfl
  | succ f ih =>
    intro done rest found h
    cases rest with
    | nil => simp [sfdLoop]
    | cons c rs =>
      simp only [sfdLoop]
      have hdecomp1 : (c :: rs)
          = (c :: rs).takeWhile (· != ' ') ++ (c :: rs).dropWhile (· != ' ') :=
        (List.takeWhile_append_dropWhile _ _).symm
      have hdecomp2 : (c :: rs).dropWhile (· != ' ')
          = ((c :: rs).dropWhile (· != ' ')).takeWhile (· == ' ')
            ++ ((c :: rs).dropWhile (· != ' ')).dropWhile (· == ' ') :=
        (List.takeWhile_append_dropWhile _ _).symm
      have htokns : ∀ x ∈ (c :: rs).takeWhile (· != ' '), (x == ' ') = false := by
        intro x hx
        have hx' := List.mem_takeWhile_imp hx
        simpa using hx'
      have hsps : ∀ x ∈ ((c :: rs).dropWhile (· != ' ')).takeWhile (· == ' '),
          (x == ' ') = true := by
        intro x hx
        have hx' := List.mem_takeWhile_imp hx
        simpa using hx'
      have hgad1 : hasGapAfterDash (found || containsChar '-' ((c :: rs).takeWhile (· != ' ')))
          ((c :: rs).dropWhile (· != ' ')) = false := by
        rw [← hgad_token _ htokns found _, ← hdecomp1]
        exact h
      obtain ⟨sp, hspe⟩ : ∃ sp, ((c :: rs).dropWhile (· != ' ')).takeWhile (· == ' ') = sp :=
        ⟨_, rfl⟩
      rw [hspe] at hsps
      rw [hspe] at hdecomp2
      rw [hspe]
      have hall : (c :: rs).takeWhile (· != ' ')
          ++ (sp ++ ((c :: rs).dropWhile (· != ' ')).dropWhile (· == ' ')) = c :: rs := by
        rw [← hdecomp2, ← hdecomp1]
      have hr2head : ∀ d rest', ((c :: rs).dropWhile (· != ' ')).dropWhile (· == ' ')
          = d :: rest' → (d == ' ') = false :=
        fun d rest' hdr => dropWhile_head_false _ _ d rest' hdr
      by_cases hf' : (found || containsChar '-' ((c :: rs).takeWhile (· != ' '))) = true
      · cases sp with
        | nil =>
          rw [if_neg (by simp)]
          rw [ih _ _ _ (by rw [hdecomp2, List.nil_append] at hgad1; exact hgad1)]
          rw [List.append_assoc, List.append_assoc, hall]
        | cons a sp1 =>
          have ha : a = ' ' := by simpa using hsps a (List.mem_cons_self _ _)
          subst ha
          cases sp1 with
          | nil =>
            rw [if_neg (by simp)]
            have hg2 : hasGapAfterDash
                (found || containsChar '-' ((c :: rs).takeWhile (· != ' ')))
                (((c :: rs).dropWhile (· != ' ')).dropWhile (· == ' ')) = false := by
              rw [hdecomp2, List.singleton_append] at hgad1
              rw [← hgad_single_space _ _ hr2head]
              exact hgad1
            rw [ih _ _ _ hg2]
            rw [List.append_assoc, List.append_assoc, hall]
          | cons b sp2 =>
            exfalso
            have hb : b = ' ' := by
              simpa using hsps b (List.mem_cons_of_mem _ (List.mem_cons_self _ _))
            subst hb
            rw [hdecomp2] at hgad1
            rw [hf'] at hgad1
            rw [List.cons_append, List.cons_append] at hgad1
            rw [hgad_two_spaces] at hgad1
            cases hgad1
      · have hf0 : (found || containsChar '-' ((c :: rs).takeWhile (· != ' '))) = false := by
          simpa using hf'
        rw [if_neg (by simp [hf0])]
        have hg2 : hasGapAfterDash
            (found || containsChar '-' ((c :: rs).takeWhile (· != ' ')))
            (((c :: rs).dropWhile (· != ' ')).dropWhile (· == ' ')) = false := by
          rw [hf0]
          rw [hdecomp2, hf0] at hgad1
          rw [hgad_spaces_false sp hsps] at hgad1
          exact hgad1
        rw [ih _ _ _ hg2]
        rw [List.append_assoc, List.append_assoc, hall]

/-- On a line with no two-space gap after a dash, the boundary search of
`split_flag_description` never fires: the whole line is the flag segment and
the description is empty. -/
theorem split_fallback (s : Str) (h : hasGapAfterDash false s = false) :
    split_flag_description s = (s, []) := by
  unfold split_flag_description
  have hsp : ∀ x ∈ s.takeWhile (· == ' '), (x == ' ') = true := by
    intro x hx
    have hx' := List.mem_takeWhile_imp hx
    simpa using hx'
  have hd : hasGapAfterDash false (s.dropWhile (· == ' ')) = false := by
    rw [← hgad_spaces_false (s.takeWhile (· == ' ')) hsp (s.dropWhile (· == ' ')),
      List.takeWhile_append_dropWhile]
    exact h
  rw [sfdLoop_fallback _ _ _ _ hd, List.takeWhile_append_dropWhile]

/-- C10, counterexample: the line `  a -- b` in a `Flags:` section contains a
token starting with `--` and no two-space run after a dash token, yet it is
NOT accepted as a flag: the bare `--` token strips to an empty long name, so
`parse_flag_line` rejects the line and the section gains no flag. -/
theorem C10_counterexample :
    (parse_help_output ("Flags:\n  a -- b".toList)).1.flags = []
    ∧ hasGapAfterDash false (trimL ("  a -- b".toList)) = false
    ∧ "--".toList ∈ splitWhitespaceL (trimL ("  a -- b".toList))
    ∧ ("--".toList).isPrefixOf ("--".toList) = true := by
  refine ⟨by decide, by decide, by decide, by decide⟩

/-- C10 (amended): for a line with no run of two-or-more spaces after any
dash-containing character and at least one dash, the boundary search never
fires, so the whole (trimmed) line is the flag segment and the description
is empty; provided additionally that the last `--`-prefixed token, after
stripping trailing commas and leading dashes, is nonempty (`L`), the line
parses to a flag with `long = L`, empty description, no default, and
`value_type` equal to the last comma-stripped bare non-dash token of the
line, if any.  (Without the nonemptiness proviso the line is rejected, see
the counterexample.) -/
theorem C10_theorem (l : Str) (L : Str)
    (hgap : hasGapAfterDash false (trimL l) = false)
    (hdash : containsChar '-' (trimL l) = true)
    (hlong : (lastLongTok (splitWhitespaceL (trimL l))).map
        (fun tk => tk.dropWhile (· == '-')) = some L)
    (hL : ¬ L = []) :
    split_flag_description (trimL l) = (trimL l, [])
    ∧ ∃ f, parse_flag_line l = some f
        ∧ f.description = [] ∧ f.long = L ∧ f.default = none
        ∧ f.value_type = lastValueTok (splitWhitespaceL (trimL l)) := by
  have hfd : split_flag_description (trimL l) = (trimL l, []) := split_fallback _ hgap
  refine ⟨hfd, ?_⟩
  obtain ⟨tk, htk, hLd⟩ := Option.map_eq_some'.mp hlong
  have hal : (List.foldl flagTokStep initFlagAcc
      (splitWhitespaceL (split_flag_description (trimL l)).1)).long = L := by
    rw [hfd]
    show (List.foldl flagTokStep initFlagAcc (splitWhitespaceL (trimL l))).long = L
    rw [flagTokFold_long, htk]
    exact hLd
  have hvt : (List.foldl flagTokStep initFlagAcc
      (splitWhitespaceL (split_flag_description (trimL l)).1)).value_type
      = lastValueTok (splitWhitespaceL (trimL l)) := by
    rw [hfd]
    show (List.foldl flagTokStep initFlagAcc (splitWhitespaceL (trimL l))).value_type = _
    rw [flagTokFold_value_type]
    cases lastValueTok (splitWhitespaceL (trimL l)) <;> rfl
  have htne : ¬ trimL l = [] := by
    intro h0
    rw [h0] at hdash
    cases hdash
  have hc1 : ¬ ((decide (trimL l = []) || !containsChar '-' (trimL l)) = true) := by
    simp [hdash, htne]
  refine ⟨⟨(List.foldl flagTokStep initFlagAcc
      (splitWhitespaceL (split_flag_description (trimL l)).1)).long,
    (List.foldl flagTokStep initFlagAcc
      (splitWhitespaceL (split_flag_description (trimL l)).1)).short,
    (split_flag_description (trimL l)).2,
    (List.foldl flagTokStep initFlagAcc
      (splitWhitespaceL (split_flag_description (trimL l)).1)).value_type,
    extractDefault (split_flag_description (trimL l)).2⟩, ?_, ?_, ?_, ?_, ?_⟩
  · simp only [parse_flag_line]
    rw [if_neg hc1, if_neg (by rw [hal]; exact hL)]
  · show (split_flag_description (trimL l)).2 = []
    rw [hfd]
  · exact hal
  · show extractDefault (split_flag_description (trimL l)).2 = none
    rw [hfd]
    rfl
  · exact hvt

def lC10 : Str := "  --db foo".toList

/-- C10, witness: `C10_theorem` applied to the gap-free flag line
`  --db foo`. -/
theorem C10_witness :
    hasGapAfterDash false (trimL lC10) = false ∧
    containsChar '-' (trimL lC10) = true ∧
    (lastLongTok (splitWhitespaceL (trimL lC10))).map (fun tk => tk.dropWhile (· == '-'))
      = some ("db".toList) ∧
    (split_flag_description (trimL lC10) = (trimL lC10, [])
      ∧ ∃ f, parse_flag_line lC10 = some f
          ∧ f.description = [] ∧ f.long = "db".toList ∧ f.default = none
          ∧ f.value_type = lastValueTok (splitWhitespaceL (trimL lC10))) :=
  ⟨by decide, by decide, by decide,
   C10_theorem lC10 ("db".toList) (by decide) (by decide) (by decide) (by decide)⟩

end Bd
